import Mathlib

/-!
Verification of the search core of `chess_sim.py` (class `StrongPythonEngine`).

The rules engine (the `chess` library: legal-move generation, push/pop,
check/checkmate/stalemate detection, piece maps) is an external collaborator of
the repository; the search core consumes it only through a narrow interface.
We embed that interface as the structure `Engine` below, and translate the
search core itself (`evaluate`, `quiescence`, `negamax`, `get_best_move`)
directly from the source.

Modelling decisions:
* Python mixes `int` scores with `float('-inf')` / `float('inf')` sentinels.
  The only arithmetic performed on scores is negation and comparison, so the
  score domain is embedded as `Score = {ninf} ∪ ℤ ∪ {pinf}` with the evident
  linear order and negation.
* `quiescence` recurses without a structurally decreasing argument (capture
  chains and check evasions); it is embedded with an explicit recursion-depth
  fuel.  All theorems are stated for every fuel (the fuel-exhausted branch
  returns `alpha`, and no theorem depends on reaching it).
* Wall-clock reads (`time.time() - self.start_time > self.time_limit`) are
  modelled by an oracle `clock : Nat → Bool` consulted at the i-th read, with
  a counter threaded through the driver exactly where the source reads the
  clock.
* The mutable board with its `push`/`pop` stack is modelled twice: a pure
  value-passing translation (`qFuel`, `negamax`, `get_best_move`), and a
  state-threading translation (`qFuelS`, `negamaxS`, `get_best_moveS`) over a
  board-with-history `MBoard`, used to verify the push/undo discipline.
* `self.nodes_visited` (a statistics counter) and the `print` calls are
  omitted: no claim concerns them and they do not influence any result.
-/

namespace ChessSpec

/-- Score domain: Python ints together with the two infinite float sentinels. -/
inductive Score where
  | ninf : Score
  | fin : Int → Score
  | pinf : Score
deriving DecidableEq, Repr

namespace Score

/-- Boolean less-or-equal on scores, with `ninf` at the bottom and `pinf` at the top. -/
def ble : Score → Score → Bool
  | ninf, _ => true
  | fin _, ninf => false
  | fin a, fin b => a ≤ b
  | fin _, pinf => true
  | pinf, ninf => false
  | pinf, fin _ => false
  | pinf, pinf => true

/-- Boolean strict less-than on scores. -/
def blt : Score → Score → Bool
  | ninf, ninf => false
  | ninf, _ => true
  | fin _, ninf => false
  | fin a, fin b => a < b
  | fin _, pinf => true
  | pinf, _ => false

instance : LE Score := ⟨fun a b => ble a b = true⟩
instance : LT Score := ⟨fun a b => blt a b = true⟩

theorem le_def (a b : Score) : a ≤ b ↔ ble a b = true := Iff.rfl

theorem lt_def (a b : Score) : a < b ↔ blt a b = true := Iff.rfl

instance decidableLE : @DecidableRel Score (· ≤ ·) := fun a b =>
  decidable_of_iff (ble a b = true) (le_def a b).symm

instance decidableLT : @DecidableRel Score (· < ·) := fun a b =>
  decidable_of_iff (blt a b = true) (lt_def a b).symm

instance : LinearOrder Score where
  le_refl a := by cases a <;> simp [le_def, ble]
  le_trans a b c := by
    cases a <;> cases b <;> cases c <;> simp [le_def, ble] <;> omega
  le_antisymm a b := by
    cases a <;> cases b <;> simp [le_def, ble] <;> omega
  le_total a b := by
    cases a <;> cases b <;> simp [le_def, ble] <;> omega
  lt_iff_le_not_le a b := by
    cases a <;> cases b <;> simp [le_def, lt_def, ble, blt] <;> omega
  decidableLE := decidableLE
  decidableLT := decidableLT

/-- Negation of a score; the Python code only ever negates scores. -/
def neg : Score → Score
  | ninf => pinf
  | fin a => fin (-a)
  | pinf => ninf

@[simp] theorem neg_neg (a : Score) : a.neg.neg = a := by
  cases a <;> simp [neg]

@[simp] theorem neg_le_neg_iff {a b : Score} : a.neg ≤ b.neg ↔ b ≤ a := by
  cases a <;> cases b <;> simp [le_def, ble, neg] <;> omega

@[simp] theorem neg_lt_neg_iff {a b : Score} : a.neg < b.neg ↔ b < a := by
  cases a <;> cases b <;> simp [lt_def, blt, neg] <;> omega

@[simp] theorem ninf_le (a : Score) : ninf ≤ a := by cases a <;> simp [le_def, ble]

@[simp] theorem le_pinf (a : Score) : a ≤ pinf := by cases a <;> simp [le_def, ble]

@[simp] theorem neg_ninf : neg ninf = pinf := rfl

@[simp] theorem neg_pinf : neg pinf = ninf := rfl

@[simp] theorem neg_fin (a : Int) : neg (fin a) = fin (-a) := rfl

theorem neg_max (a b : Score) : (max a b).neg = min a.neg b.neg := by
  rcases le_total a b with h | h
  · rw [max_eq_right h, min_eq_right (neg_le_neg_iff.mpr h)]
  · rw [max_eq_left h, min_eq_left (neg_le_neg_iff.mpr h)]

theorem neg_min (a b : Score) : (min a b).neg = max a.neg b.neg := by
  rcases le_total a b with h | h
  · rw [min_eq_left h, max_eq_left (neg_le_neg_iff.mpr h)]
  · rw [min_eq_right h, max_eq_right (neg_le_neg_iff.mpr h)]

/-- Whether a score is a finite integer (no infinite sentinel). -/
def isFinite : Score → Bool
  | fin _ => true
  | _ => false

end Score

open Score

/-- The conditional update idiom `if a < s then s else a` used throughout the
source is exactly `max a s`. -/
theorem ite_update_eq_max (a s : Score) : (if a < s then s else a) = max a s := by
  rcases lt_or_ge a s with h | h
  · simp [h, max_eq_right h.le]
  · simp [not_lt.mpr h, max_eq_left h]

/--
Interface of the external rules engine (the `chess` library), restricted to the
operations the search core actually invokes.  `Pos` is the board-position type,
`M` the move type.  `turn` follows python-chess: `true` is White.
`piece_type_at_to p m` models `board.piece_at(m.to_square)` restricted to its
piece type (`1`=pawn .. `6`=king), the only data the source reads from it.
`piece_map` models `board.piece_map().items()` as a list of
(square, piece_type, color) triples with squares numbered a1=0 .. h8=63.
-/
structure Engine (Pos M : Type) where
  legal_moves : Pos → List M
  push : Pos → M → Pos
  is_check : Pos → Bool
  is_checkmate : Pos → Bool
  is_stalemate : Pos → Bool
  is_insufficient_material : Pos → Bool
  is_game_over : Pos → Bool
  turn : Pos → Bool
  is_capture : Pos → M → Bool
  piece_type_at_to : Pos → M → Option Nat
  piece_map : Pos → List (Nat × Nat × Bool)

/-- Material values `PIECE_VALUES = [100, 320, 330, 500, 900, 20000]` for
pawn, knight, bishop, rook, queen, king. -/
def PIECE_VALUES : List Int := [100, 320, 330, 500, 900, 20000]

/-- Piece-square table for pawns (white perspective, index 0 printed first). -/
def pstPawn : List Int :=
  [0,  0,  0,  0,  0,  0,  0,  0,
   50, 50, 50, 50, 50, 50, 50, 50,
   10, 10, 20, 30, 30, 20, 10, 10,
   5,  5, 10, 25, 25, 10,  5,  5,
   0,  0,  0, 20, 20,  0,  0,  0,
   5, -5,-10,  0,  0,-10, -5,  5,
   5, 10, 10,-20,-20, 10, 10,  5,
   0,  0,  0,  0,  0,  0,  0,  0]

/-- Piece-square table for knights. -/
def pstKnight : List Int :=
  [-50,-40,-30,-30,-30,-30,-40,-50,
   -40,-20,  0,  0,  0,  0,-20,-40,
   -30,  0, 10, 15, 15, 10,  0,-30,
   -30,  5, 15, 20, 20, 15,  5,-30,
   -30,  0, 15, 20, 20, 15,  0,-30,
   -30,  5, 10, 15, 15, 10,  5,-30,
   -40,-20,  0,  5,  5,  0,-20,-40,
   -50,-40,-30,-30,-30,-30,-40,-50]

/-- Piece-square table for bishops. -/
def pstBishop : List Int :=
  [-20,-10,-10,-10,-10,-10,-10,-20,
   -10,  0,  0,  0,  0,  0,  0,-10,
   -10,  0,  5, 10, 10,  5,  0,-10,
   -10,  5,  5, 10, 10,  5,  5,-10,
   -10,  0, 10, 10, 10, 10,  0,-10,
   -10, 10, 10, 10, 10, 10, 10,-10,
   -10,  5,  0,  0,  0,  0,  5,-10,
   -20,-10,-10,-10,-10,-10,-10,-20]

/-- Piece-square table for rooks. -/
def pstRook : List Int :=
  [0,  0,  0,  0,  0,  0,  0,  0,
   5, 10, 10, 10, 10, 10, 10,  5,
   -5,  0,  0,  0,  0,  0,  0, -5,
   -5,  0,  0,  0,  0,  0,  0, -5,
   -5,  0,  0,  0,  0,  0,  0, -5,
   -5,  0,  0,  0,  0,  0,  0, -5,
   -5,  0,  0,  0,  0,  0,  0, -5,
   0,  0,  0,  5,  5,  0,  0,  0]

/-- Piece-square table for queens. -/
def pstQueen : List Int :=
  [-20,-10,-10, -5, -5,-10,-10,-20,
   -10,  0,  0,  0,  0,  0,  0,-10,
   -10,  0,  5,  5,  5,  5,  0,-10,
   -5,  0,  5,  5,  5,  5,  0, -5,
   0,  0,  5,  5,  5,  5,  0, -5,
   -10,  5,  5,  5,  5,  5,  0,-10,
   -10,  0,  5,  0,  0,  0,  0,-10,
   -20,-10,-10, -5, -5,-10,-10,-20]

/-- Piece-square table for kings. -/
def pstKing : List Int :=
  [-30,-40,-40,-50,-50,-40,-40,-30,
   -30,-40,-40,-50,-50,-40,-40,-30,
   -30,-40,-40,-50,-50,-40,-40,-30,
   -30,-40,-40,-50,-50,-40,-40,-30,
   -20,-30,-30,-40,-40,-30,-30,-20,
   -10,-20,-20,-20,-20,-20,-20,-10,
   20, 20,  0,  0,  0,  0, 20, 20,
   20, 30, 10,  0,  0, 10, 30, 20]

/-- The `pst` dictionary keyed by piece type (1=pawn .. 6=king).  A key outside
the dictionary raises in Python; here it yields the empty table (never
exercised on python-chess piece types). -/
def pst : Nat → List Int
  | 1 => pstPawn
  | 2 => pstKnight
  | 3 => pstBishop
  | 4 => pstRook
  | 5 => pstQueen
  | 6 => pstKing
  | _ => []

/-- `chess.square_rank`: rank index 0..7 of a square numbered a1=0 .. h8=63. -/
def square_rank (sq : Nat) : Nat := sq / 8

/-- `chess.square_file`: file index 0..7 of a square. -/
def square_file (sq : Nat) : Nat := sq % 8

/-- Vertical reflection of a square (rank r goes to rank 7−r, same file). -/
def mirrorSquare (sq : Nat) : Nat := (7 - square_rank sq) * 8 + square_file sq

/-- Table index the source computes for a White piece on `sq`:
`(7 - rank) * 8 + file`. -/
def whiteTableIdx (sq : Nat) : Nat := (7 - square_rank sq) * 8 + square_file sq

/-- Table index the source computes for a Black piece on `sq`:
`rank_w = 7 - rank`, then `(7 - rank_w) * 8 + file`. -/
def blackTableIdx (sq : Nat) : Nat :=
  (7 - (7 - square_rank sq)) * 8 + square_file sq

/-- Contribution of one `piece_map` entry to the evaluation sum:
`+ (material + positional)` for White, `- (material + positional)` for Black,
with the table indexed as in the source.  Out-of-range lookups (impossible for
python-chess data) default to 0. -/
def pieceContrib (sq pt : Nat) (color : Bool) : Int :=
  let material := PIECE_VALUES.getD (pt - 1) 0
  if color then
    material + (pst pt).getD (whiteTableIdx sq) 0
  else
    -(material + (pst pt).getD (blackTableIdx sq) 0)

/-- `StrongPythonEngine.evaluate`: static evaluation, White-positive. -/
def evaluate {Pos M : Type} (e : Engine Pos M) (p : Pos) : Int :=
  if e.is_checkmate p then (if e.turn p then -99999 else 99999)
  else if e.is_stalemate p || e.is_insufficient_material p then 0
  else ((e.piece_map p).map (fun x => pieceContrib x.1 x.2.1 x.2.2)).sum

/-- Stable insertion of `a` into a list sorted descending by `key`: `a` goes in
front of the first element with a strictly smaller key, after all elements with
a greater-or-equal key (matching Python's stable `list.sort(..., reverse=True)`). -/
def insDesc {M : Type} (key : M → Int) (a : M) : List M → List M
  | [] => [a]
  | b :: l => if key b ≤ key a then a :: b :: l else b :: insDesc key a l

/-- Stable descending sort by an integer key, modelling
`list.sort(key=..., reverse=True)`. -/
def sortDesc {M : Type} (key : M → Int) : List M → List M
  | [] => []
  | a :: l => insDesc key a (sortDesc key l)

theorem insDesc_length {M : Type} (key : M → Int) (a : M) (l : List M) :
    (insDesc key a l).length = l.length + 1 := by
  induction l with
  | nil => rfl
  | cons b l ih =>
    by_cases h : key b ≤ key a <;> simp [insDesc, h, ih]

theorem sortDesc_length {M : Type} (key : M → Int) (l : List M) :
    (sortDesc key l).length = l.length := by
  induction l with
  | nil => rfl
  | cons a l ih => simp [sortDesc, insDesc_length, ih]

/-- Sort key used inside `quiescence`:
`0 if not board.piece_at(m.to_square) else PIECE_VALUES[... - 1]`. -/
def qKey {Pos M : Type} (e : Engine Pos M) (p : Pos) (m : M) : Int :=
  match e.piece_type_at_to p m with
  | none => 0
  | some pt => PIECE_VALUES.getD (pt - 1) 0

/-- Candidate move list of `quiescence`: all legal moves when in check,
otherwise only captures, sorted by victim value descending. -/
def qSorted {Pos M : Type} (e : Engine Pos M) (p : Pos) : List M :=
  let legal := e.legal_moves p
  let moves := if e.is_check p then legal else legal.filter (fun m => e.is_capture p m)
  sortDesc (qKey e p) moves

/-- Sort key `move_score` used inside `negamax`: `1000 + victim value` for
captures, `0` otherwise. -/
def nKey {Pos M : Type} (e : Engine Pos M) (p : Pos) (m : M) : Int :=
  if e.is_capture p m then
    1000 + (match e.piece_type_at_to p m with
            | some pt => PIECE_VALUES.getD (pt - 1) 0
            | none => 0)
  else 0

/-- Move list of `negamax`: all legal moves sorted by `move_score` descending. -/
def nSorted {Pos M : Type} (e : Engine Pos M) (p : Pos) : List M :=
  sortDesc (nKey e p) (e.legal_moves p)

/-- Root move list of `get_best_move`: legal moves with captures first. -/
def rootSorted {Pos M : Type} (e : Engine Pos M) (p : Pos) : List M :=
  sortDesc (fun m => if e.is_capture p m then (1 : Int) else 0) (e.legal_moves p)

/-- The move loop of `quiescence`, abstracted over the recursive call `rec`:
push, recurse with negated swapped window, undo; fail high with `beta`,
otherwise raise `alpha`. -/
def qLoopF {Pos M : Type} (e : Engine Pos M) (rec : Pos → Score → Score → Score)
    (p : Pos) (beta : Score) : List M → Score → Score
  | [], alpha => alpha
  | m :: rest, alpha =>
    let score := (rec (e.push p m) beta.neg alpha.neg).neg
    if beta ≤ score then beta
    else if alpha < score then qLoopF e rec p beta rest score
    else qLoopF e rec p beta rest alpha

/-- `StrongPythonEngine.quiescence`, with explicit recursion fuel.  When not in
check the mover-relative stand pat can fail high (return `beta`) or raise
`alpha`; then captures (or, in check, all evasions) are searched. -/
def qFuel {Pos M : Type} (e : Engine Pos M) : Nat → Pos → Score → Score → Score
  | 0, _, alpha, _ => alpha
  | f + 1, p, alpha, beta =>
    if e.is_check p then
      qLoopF e (fun q a b => qFuel e f q a b) p beta (qSorted e p) alpha
    else
      let sp : Int := evaluate e p
      let stand_pat : Score := Score.fin (if e.turn p = false then -sp else sp)
      if beta ≤ stand_pat then beta
      else
        let alpha1 := if alpha < stand_pat then stand_pat else alpha
        qLoopF e (fun q a b => qFuel e f q a b) p beta (qSorted e p) alpha1

/-- The move loop of `negamax`, abstracted over the recursive call: fail-soft
maximum with alpha raising and beta cutoff (`break` returns the running
`max_score`). -/
def nLoopF {Pos M : Type} (e : Engine Pos M) (rec : Pos → Score → Score → Score)
    (p : Pos) (beta : Score) : List M → Score → Score → Score
  | [], maxScore, _ => maxScore
  | m :: rest, maxScore, alpha =>
    let score := (rec (e.push p m) beta.neg alpha.neg).neg
    let maxScore1 := if maxScore < score then score else maxScore
    let alpha1 := if alpha < maxScore1 then maxScore1 else alpha
    if beta ≤ alpha1 then maxScore1
    else nLoopF e rec p beta rest maxScore1 alpha1

/-- `StrongPythonEngine.negamax`.  `F` is the quiescence fuel used when the
depth reaches 0.  At positive depth a game-over position scores
`-99999 + depth` if checkmate (mover is mated) and `0` for any other
game-over condition, before any move iteration. -/
def negamax {Pos M : Type} (e : Engine Pos M) (F : Nat) :
    Nat → Pos → Score → Score → Score
  | 0, p, alpha, beta => qFuel e F p alpha beta
  | d + 1, p, alpha, beta =>
    if e.is_game_over p then
      if e.is_checkmate p then Score.fin (-99999 + (d + 1 : Int)) else Score.fin 0
    else
      nLoopF e (fun q a b => negamax e F d q a b) p beta (nSorted e p)
        Score.ninf alpha

/-- Result of one root-move loop of the driver: best move and score of the
current depth, the running alpha, the clock-read counter after the loop, and
whether the loop ran through every root move (no mid-loop time break). -/
structure RLRes (M : Type) where
  dbm : Option M
  dbs : Score
  alpha : Score
  t : Nat
  completed : Bool
deriving Repr, DecidableEq

/-- The root-move loop of `get_best_move` at depth `d`: search each root move
with `negamax(d - 1)`, track the depth-best move and score, raise alpha, and
consult the clock after each move (breaking out when it reports the budget
exceeded). -/
def rootLoop {Pos M : Type} (e : Engine Pos M) (F : Nat) (clock : Nat → Bool)
    (d : Nat) (p : Pos) :
    List M → Option M → Score → Score → Score → Nat → RLRes M
  | [], dbm, dbs, alpha, _, t => ⟨dbm, dbs, alpha, t, true⟩
  | m :: rest, dbm, dbs, alpha, beta, t =>
    let score := (negamax e F (d - 1) (e.push p m) beta.neg alpha.neg).neg
    let dbm1 := if dbs < score then some m else dbm
    let dbs1 := if dbs < score then score else dbs
    let alpha1 := if alpha < score then score else alpha
    if clock t then ⟨dbm1, dbs1, alpha1, t + 1, false⟩
    else rootLoop e F clock d p rest dbm1 dbs1 alpha1 beta (t + 1)

/-- The iterative-deepening `while current_depth <= max_depth` loop.  The first
argument counts remaining iterations (`max_depth - current_depth + 1`).  After
each depth the clock is read again: if the budget is exceeded the loop breaks,
falling back to the aborted depth's partial best move only when no previous
depth had been adopted; otherwise the depth's best move is adopted and the
depth increases. -/
def idLoop {Pos M : Type} (e : Engine Pos M) (F : Nat) (clock : Nat → Bool)
    (p : Pos) (ms : List M) : Nat → Nat → Option M → Nat → Option M
  | 0, _, bm, _ => bm
  | k + 1, cd, bm, t =>
    let r := rootLoop e F clock cd p ms none Score.ninf Score.ninf Score.pinf t
    if clock r.t then
      (if r.dbm.isSome && bm.isNone then r.dbm else bm)
    else idLoop e F clock p ms k (cd + 1) r.dbm (r.t + 1)

/-- `StrongPythonEngine.get_best_move`: returns `none` for an empty legal-move
set, otherwise runs iterative deepening from depth 1 up to the fixed ceiling
`max_depth = 4` over the capture-first sorted root moves. -/
def get_best_move {Pos M : Type} (e : Engine Pos M) (F : Nat)
    (clock : Nat → Bool) (p : Pos) : Option M :=
  let legal := e.legal_moves p
  if legal.isEmpty then none
  else idLoop e F clock p (rootSorted e p) 4 1 none 0

/-!
State-threading model of the mutable board.  python-chess boards are mutated in
place: `board.push(move)` applies a move and records the previous state on an
internal stack, `board.pop()` restores it.  `MBoard` carries the current
position together with that stack; the search functions are re-translated in
state-passing style, performing `pushB`/`popB` exactly where the source calls
`board.push`/`board.pop`.
-/

/-- A mutable board object: current position and the undo stack. -/
structure MBoard (Pos : Type) where
  cur : Pos
  hist : List Pos
deriving Repr, DecidableEq

/-- `board.push(move)`: apply the move, remembering the previous position. -/
def pushB {Pos M : Type} (e : Engine Pos M) (b : MBoard Pos) (m : M) : MBoard Pos :=
  ⟨e.push b.cur m, b.cur :: b.hist⟩

/-- `board.pop()`: restore the previous position (identity on an empty stack,
which the search never reaches: every `popB` follows a `pushB`). -/
def popB {Pos : Type} (b : MBoard Pos) : MBoard Pos :=
  match b with
  | ⟨_, q :: rest⟩ => ⟨q, rest⟩
  | b => b

@[simp] theorem popB_pushB {Pos M : Type} (e : Engine Pos M) (b : MBoard Pos) (m : M) :
    popB (pushB e b m) = b := rfl

@[simp] theorem pushB_cur {Pos M : Type} (e : Engine Pos M) (b : MBoard Pos) (m : M) :
    (pushB e b m).cur = e.push b.cur m := rfl

/-- State-threading version of the `quiescence` move loop. -/
def qLoopS {Pos M : Type} (e : Engine Pos M)
    (rec : MBoard Pos → Score → Score → Score × MBoard Pos)
    (beta : Score) : MBoard Pos → List M → Score → Score × MBoard Pos
  | b, [], alpha => (alpha, b)
  | b, m :: rest, alpha =>
    let b1 := pushB e b m
    let r := rec b1 beta.neg alpha.neg
    let score := r.1.neg
    let b2 := popB r.2
    if beta ≤ score then (beta, b2)
    else if alpha < score then qLoopS e rec beta b2 rest score
    else qLoopS e rec beta b2 rest alpha

/-- State-threading version of `quiescence`. -/
def qFuelS {Pos M : Type} (e : Engine Pos M) :
    Nat → MBoard Pos → Score → Score → Score × MBoard Pos
  | 0, b, alpha, _ => (alpha, b)
  | f + 1, b, alpha, beta =>
    if e.is_check b.cur then
      qLoopS e (fun b2 a bb => qFuelS e f b2 a bb) beta b (qSorted e b.cur) alpha
    else
      let sp : Int := evaluate e b.cur
      let stand_pat : Score := Score.fin (if e.turn b.cur = false then -sp else sp)
      if beta ≤ stand_pat then (beta, b)
      else
        let alpha1 := if alpha < stand_pat then stand_pat else alpha
        qLoopS e (fun b2 a bb => qFuelS e f b2 a bb) beta b (qSorted e b.cur) alpha1

/-- State-threading version of the `negamax` move loop. -/
def nLoopS {Pos M : Type} (e : Engine Pos M)
    (rec : MBoard Pos → Score → Score → Score × MBoard Pos)
    (beta : Score) : MBoard Pos → List M → Score → Score → Score × MBoard Pos
  | b, [], maxScore, _ => (maxScore, b)
  | b, m :: rest, maxScore, alpha =>
    let b1 := pushB e b m
    let r := rec b1 beta.neg alpha.neg
    let score := r.1.neg
    let b2 := popB r.2
    let maxScore1 := if maxScore < score then score else maxScore
    let alpha1 := if alpha < maxScore1 then maxScore1 else alpha
    if beta ≤ alpha1 then (maxScore1, b2)
    else nLoopS e rec beta b2 rest maxScore1 alpha1

/-- State-threading version of `negamax`. -/
def negamaxS {Pos M : Type} (e : Engine Pos M) (F : Nat) :
    Nat → MBoard Pos → Score → Score → Score × MBoard Pos
  | 0, b, alpha, beta => qFuelS e F b alpha beta
  | d + 1, b, alpha, beta =>
    if e.is_game_over b.cur then
      if e.is_checkmate b.cur then (Score.fin (-99999 + (d + 1 : Int)), b)
      else (Score.fin 0, b)
    else
      nLoopS e (fun b2 a bb => negamaxS e F d b2 a bb) beta b (nSorted e b.cur)
        Score.ninf alpha

/-- State-threading version of the root-move loop of `get_best_move`,
including the mid-loop time break (the board has been popped before the
break executes, as in the source). -/
def rootLoopS {Pos M : Type} (e : Engine Pos M) (F : Nat) (clock : Nat → Bool)
    (d : Nat) :
    MBoard Pos → List M → Option M → Score → Score → Score → Nat →
      RLRes M × MBoard Pos
  | b, [], dbm, dbs, alpha, _, t => (⟨dbm, dbs, alpha, t, true⟩, b)
  | b, m :: rest, dbm, dbs, alpha, beta, t =>
    let b1 := pushB e b m
    let r := negamaxS e F (d - 1) b1 beta.neg alpha.neg
    let score := r.1.neg
    let b2 := popB r.2
    let dbm1 := if dbs < score then some m else dbm
    let dbs1 := if dbs < score then score else dbs
    let alpha1 := if alpha < score then score else alpha
    if clock t then (⟨dbm1, dbs1, alpha1, t + 1, false⟩, b2)
    else rootLoopS e F clock d b2 rest dbm1 dbs1 alpha1 beta (t + 1)

/-- State-threading version of the iterative-deepening loop. -/
def idLoopS {Pos M : Type} (e : Engine Pos M) (F : Nat) (clock : Nat → Bool)
    (ms : List M) : Nat → MBoard Pos → Nat → Option M → Nat → Option M × MBoard Pos
  | 0, b, _, bm, _ => (bm, b)
  | k + 1, b, cd, bm, t =>
    let r := rootLoopS e F clock cd b ms none Score.ninf Score.ninf Score.pinf t
    if clock r.1.t then
      ((if r.1.dbm.isSome && bm.isNone then r.1.dbm else bm), r.2)
    else idLoopS e F clock ms k r.2 (cd + 1) r.1.dbm (r.1.t + 1)

/-- State-threading version of `get_best_move`. -/
def get_best_moveS {Pos M : Type} (e : Engine Pos M) (F : Nat)
    (clock : Nat → Bool) (b : MBoard Pos) : Option M × MBoard Pos :=
  let legal := e.legal_moves b.cur
  if legal.isEmpty then (none, b)
  else idLoopS e F clock (rootSorted e b.cur) 4 b 1 none 0

theorem qLoopS_eq {Pos M : Type} (e : Engine Pos M)
    (recS : MBoard Pos → Score → Score → Score × MBoard Pos)
    (recP : Pos → Score → Score → Score)
    (hrec : ∀ b a bb, recS b a bb = (recP b.cur a bb, b))
    (beta : Score) :
    ∀ (ms : List M) (b : MBoard Pos) (alpha : Score),
      qLoopS e recS beta b ms alpha = (qLoopF e recP b.cur beta ms alpha, b) := by
  intro ms
  induction ms with
  | nil => intro b alpha; rfl
  | cons m rest ih =>
    intro b alpha
    simp only [qLoopS, qLoopF, hrec, popB_pushB, pushB_cur]
    split
    · rfl
    · split <;> exact ih b _

theorem qFuelS_eq {Pos M : Type} (e : Engine Pos M) :
    ∀ (f : Nat) (b : MBoard Pos) (alpha beta : Score),
      qFuelS e f b alpha beta = (qFuel e f b.cur alpha beta, b) := by
  intro f
  induction f with
  | zero => intro b alpha beta; rfl
  | succ f ih =>
    intro b alpha beta
    simp only [qFuelS, qFuel]
    split
    · exact qLoopS_eq e _ _ (fun b2 a bb => ih b2 a bb) beta _ b alpha
    · split
      all_goals
        split
        · rfl
        · exact qLoopS_eq e _ _ (fun b2 a bb => ih b2 a bb) beta _ b _

theorem nLoopS_eq {Pos M : Type} (e : Engine Pos M)
    (recS : MBoard Pos → Score → Score → Score × MBoard Pos)
    (recP : Pos → Score → Score → Score)
    (hrec : ∀ b a bb, recS b a bb = (recP b.cur a bb, b))
    (beta : Score) :
    ∀ (ms : List M) (b : MBoard Pos) (maxScore alpha : Score),
      nLoopS e recS beta b ms maxScore alpha =
        (nLoopF e recP b.cur beta ms maxScore alpha, b) := by
  intro ms
  induction ms with
  | nil => intro b maxScore alpha; rfl
  | cons m rest ih =>
    intro b maxScore alpha
    simp only [nLoopS, nLoopF, hrec, popB_pushB, pushB_cur]
    split <;> split <;> split <;> first | rfl | exact ih b _ _

theorem negamaxS_eq {Pos M : Type} (e : Engine Pos M) (F : Nat) :
    ∀ (d : Nat) (b : MBoard Pos) (alpha beta : Score),
      negamaxS e F d b alpha beta = (negamax e F d b.cur alpha beta, b) := by
  intro d
  induction d with
  | zero => intro b alpha beta; exact qFuelS_eq e F b alpha beta
  | succ d ih =>
    intro b alpha beta
    simp only [negamaxS, negamax]
    split
    · split <;> rfl
    · exact nLoopS_eq e _ _ (fun b2 a bb => ih b2 a bb) beta _ b _ _

theorem rootLoopS_eq {Pos M : Type} (e : Engine Pos M) (F : Nat)
    (clock : Nat → Bool) (d : Nat) :
    ∀ (ms : List M) (b : MBoard Pos) (dbm : Option M) (dbs alpha beta : Score)
      (t : Nat),
      rootLoopS e F clock d b ms dbm dbs alpha beta t =
        (rootLoop e F clock d b.cur ms dbm dbs alpha beta t, b) := by
  intro ms
  induction ms with
  | nil => intro b dbm dbs alpha beta t; rfl
  | cons m rest ih =>
    intro b dbm dbs alpha beta t
    simp only [rootLoopS, rootLoop, negamaxS_eq, popB_pushB, pushB_cur]
    split
    · rfl
    · exact ih b _ _ _ beta _

theorem idLoopS_eq {Pos M : Type} (e : Engine Pos M) (F : Nat)
    (clock : Nat → Bool) (ms : List M) :
    ∀ (k : Nat) (b : MBoard Pos) (cd : Nat) (bm : Option M) (t : Nat),
      idLoopS e F clock ms k b cd bm t =
        (idLoop e F clock b.cur ms k cd bm t, b) := by
  intro k
  induction k with
  | zero => intro b cd bm t; rfl
  | succ k ih =>
    intro b cd bm t
    simp only [idLoopS, idLoop, rootLoopS_eq]
    split
    · rfl
    · exact ih b _ _ _

theorem get_best_moveS_eq {Pos M : Type} (e : Engine Pos M) (F : Nat)
    (clock : Nat → Bool) (b : MBoard Pos) :
    get_best_moveS e F clock b = (get_best_move e F clock b.cur, b) := by
  simp only [get_best_moveS, get_best_move]
  split
  · rfl
  · exact idLoopS_eq e F clock _ 4 b 1 none 0

/-!
Window-independence theory.  `qVal` and `nVal` are the unpruned (full-window)
values of the quiescence and negamax trees; the bounds lemmas below are the
classic alpha-beta soundness statements: a windowed search result `g` on
`[alpha, beta]` always satisfies `min beta v ≤ g ≤ max alpha v` where `v` is
the unpruned value, hence a non-cutoff result (`alpha < g < beta`) equals `v`.
-/

/-- Maximum of a list of scores (`ninf` for the empty list). -/
def smax (l : List Score) : Score := l.foldr max Score.ninf

@[simp] theorem smax_nil : smax [] = Score.ninf := rfl

@[simp] theorem smax_cons (a : Score) (l : List Score) :
    smax (a :: l) = max a (smax l) := rfl

/-- Unpruned value of the quiescence search tree (same candidate moves and
stand pat as `qFuel`, no window). -/
def qVal {Pos M : Type} (e : Engine Pos M) : Nat → Pos → Score
  | 0, _ => Score.ninf
  | f + 1, p =>
    let children := smax ((qSorted e p).map (fun m => (qVal e f (e.push p m)).neg))
    if e.is_check p then children
    else
      let sp : Int := evaluate e p
      let stand_pat : Score := Score.fin (if e.turn p = false then -sp else sp)
      max stand_pat children

/-- Unpruned value of the negamax search tree (quiescence values at depth 0,
terminal scores at game over, otherwise the maximum over the same sorted move
list of the negated child values). -/
def nVal {Pos M : Type} (e : Engine Pos M) (F : Nat) : Nat → Pos → Score
  | 0, p => qVal e F p
  | d + 1, p =>
    if e.is_game_over p then
      if e.is_checkmate p then Score.fin (-99999 + (d + 1 : Int)) else Score.fin 0
    else smax ((nSorted e p).map (fun m => (nVal e F d (e.push p m)).neg))

theorem ite_qLoopF_eq_max {Pos M : Type} (e : Engine Pos M)
    (rec : Pos → Score → Score → Score) (p : Pos) (beta : Score) (rest : List M)
    (alpha s : Score) :
    (if alpha < s then qLoopF e rec p beta rest s else qLoopF e rec p beta rest alpha) =
      qLoopF e rec p beta rest (max alpha s) := by
  rcases lt_or_ge alpha s with h | h
  · rw [if_pos h, max_eq_right h.le]
  · rw [if_neg (not_lt.mpr h), max_eq_left h]

theorem qLoopF_bounds {Pos M : Type} (e : Engine Pos M) (f : Nat) (p : Pos)
    (beta : Score)
    (ihq : ∀ (q : Pos) (a b : Score), a < b →
      min b (qVal e f q) ≤ qFuel e f q a b ∧
      qFuel e f q a b ≤ max a (qVal e f q)) :
    ∀ (ms : List M) (alpha : Score), alpha < beta →
      min beta (max alpha (smax (ms.map (fun m => (qVal e f (e.push p m)).neg)))) ≤
        qLoopF e (fun q a b => qFuel e f q a b) p beta ms alpha ∧
      qLoopF e (fun q a b => qFuel e f q a b) p beta ms alpha ≤
        max alpha (smax (ms.map (fun m => (qVal e f (e.push p m)).neg))) := by
  intro ms
  induction ms with
  | nil =>
    intro alpha hab
    simp only [qLoopF, List.map_nil, smax_nil]
    rw [max_eq_left (ninf_le alpha), min_eq_right hab.le]
    exact ⟨le_refl alpha, le_refl alpha⟩
  | cons m rest ih =>
    intro alpha hab
    set c : Score := qVal e f (e.push p m) with hc
    set R : Score := smax (rest.map (fun m => (qVal e f (e.push p m)).neg)) with hR
    have hinner := ihq (e.push p m) beta.neg alpha.neg (Score.neg_lt_neg_iff.mpr hab)
    set s : Score := (qFuel e f (e.push p m) beta.neg alpha.neg).neg with hs
    have hs_lo : min beta c.neg ≤ s := by
      have := Score.neg_le_neg_iff.mpr hinner.2
      rwa [neg_max, Score.neg_neg] at this
    have hs_hi : s ≤ max alpha c.neg := by
      have := Score.neg_le_neg_iff.mpr hinner.1
      rwa [neg_min, Score.neg_neg] at this
    simp only [qLoopF, List.map_cons, smax_cons]
    rw [← hc, ← hR, ← hs, ite_qLoopF_eq_max]
    by_cases hbs : beta ≤ s
    · rw [if_pos hbs]
      constructor
      · exact min_le_left _ _
      · exact hbs.trans (hs_hi.trans (max_le_max le_rfl (le_max_left _ _)))
    · rw [if_neg hbs]
      have hsb : s < beta := not_le.mp hbs
      have ha1b : max alpha s < beta := max_lt hab hsb
      have hIH := ih (max alpha s) ha1b
      constructor
      · refine le_trans ?_ hIH.1
        rw [min_max_distrib_left, min_max_distrib_left, min_max_distrib_left]
        have h1 : min beta alpha ≤ min beta (max alpha s) :=
          min_le_min le_rfl (le_max_left _ _)
        have h2 : min beta c.neg ≤ min beta (max alpha s) := by
          refine le_trans (le_min (min_le_left _ _) hs_lo) ?_
          exact min_le_min le_rfl (le_max_right _ _)
        exact max_le (h1.trans (le_max_left _ _))
          (max_le (h2.trans (le_max_left _ _))
            (le_max_right _ _))
      · refine hIH.2.trans ?_
        refine max_le (max_le (le_max_left _ _) ?_) ?_
        · exact hs_hi.trans (max_le_max le_rfl (le_max_left _ _))
        · exact (le_max_right c.neg R).trans (le_max_right alpha _)

theorem qFuel_bounds {Pos M : Type} (e : Engine Pos M) :
    ∀ (f : Nat) (p : Pos) (alpha beta : Score), alpha < beta →
      min beta (qVal e f p) ≤ qFuel e f p alpha beta ∧
      qFuel e f p alpha beta ≤ max alpha (qVal e f p) := by
  intro f
  induction f with
  | zero =>
    intro p alpha beta hab
    simp only [qFuel, qVal]
    rw [min_eq_right (ninf_le beta), max_eq_left (ninf_le alpha)]
    exact ⟨ninf_le alpha, le_refl alpha⟩
  | succ f ih =>
    intro p alpha beta hab
    simp only [qFuel, qVal]
    by_cases hck : e.is_check p
    · rw [if_pos hck, if_pos hck]
      have h := qLoopF_bounds e f p beta ih (qSorted e p) alpha hab
      exact ⟨le_trans (min_le_min le_rfl (le_max_right alpha _)) h.1, h.2⟩
    · rw [if_neg hck, if_neg hck]
      set sp : Score :=
        Score.fin (if e.turn p = false then -(evaluate e p) else evaluate e p)
      set C : Score := smax ((qSorted e p).map (fun m => (qVal e f (e.push p m)).neg))
      by_cases hsb : beta ≤ sp
      · rw [if_pos hsb]
        constructor
        · exact min_le_left _ _
        · exact hsb.trans ((le_max_left sp C).trans (le_max_right alpha _))
      · rw [if_neg hsb, ite_update_eq_max]
        have ha1b : max alpha sp < beta := max_lt hab (not_le.mp hsb)
        have h := qLoopF_bounds e f p beta ih (qSorted e p) (max alpha sp) ha1b
        constructor
        · refine le_trans ?_ h.1
          refine min_le_min le_rfl ?_
          refine max_le ?_ ?_
          · exact (le_max_right alpha sp).trans (le_max_left _ _)
          · exact le_max_right _ _
        · refine h.2.trans ?_
          rw [max_assoc]

theorem nLoopF_bounds {Pos M : Type} (e : Engine Pos M) (F d : Nat) (p : Pos)
    (beta : Score)
    (ihn : ∀ (q : Pos) (a b : Score), a < b →
      min b (nVal e F d q) ≤ negamax e F d q a b ∧
      negamax e F d q a b ≤ max a (nVal e F d q)) :
    ∀ (ms : List M) (maxScore alpha : Score), alpha < beta → maxScore ≤ alpha →
      min beta (max maxScore
          (smax (ms.map (fun m => (nVal e F d (e.push p m)).neg)))) ≤
        nLoopF e (fun q a b => negamax e F d q a b) p beta ms maxScore alpha ∧
      nLoopF e (fun q a b => negamax e F d q a b) p beta ms maxScore alpha ≤
        max alpha (smax (ms.map (fun m => (nVal e F d (e.push p m)).neg))) := by
  intro ms
  induction ms with
  | nil =>
    intro maxScore alpha hab hMa
    simp only [nLoopF, List.map_nil, smax_nil]
    rw [max_eq_left (ninf_le maxScore), max_eq_left (ninf_le alpha)]
    exact ⟨min_le_right _ _, hMa⟩
  | cons m rest ih =>
    intro maxScore alpha hab hMa
    set c : Score := nVal e F d (e.push p m) with hc
    set R : Score := smax (rest.map (fun m => (nVal e F d (e.push p m)).neg)) with hR
    have hinner := ihn (e.push p m) beta.neg alpha.neg (Score.neg_lt_neg_iff.mpr hab)
    set s : Score := (negamax e F d (e.push p m) beta.neg alpha.neg).neg with hs
    have hs_lo : min beta c.neg ≤ s := by
      have := Score.neg_le_neg_iff.mpr hinner.2
      rwa [neg_max, Score.neg_neg] at this
    have hs_hi : s ≤ max alpha c.neg := by
      have := Score.neg_le_neg_iff.mpr hinner.1
      rwa [neg_min, Score.neg_neg] at this
    simp only [nLoopF, List.map_cons, smax_cons]
    rw [← hc, ← hR, ← hs, ite_update_eq_max, ite_update_eq_max]
    have halpha1 : max alpha (max maxScore s) = max alpha s := by
      rw [← max_assoc, max_eq_left hMa]
    rw [halpha1]
    by_cases hcut : beta ≤ max alpha s
    · rw [if_pos hcut]
      have hbs : beta ≤ s := by
        rcases max_cases alpha s with ⟨heq, _⟩ | ⟨heq, _⟩
        · exact absurd (lt_of_lt_of_le hab (heq ▸ hcut)) (lt_irrefl alpha)
        · exact heq ▸ hcut
      constructor
      · exact (min_le_left _ _).trans (hbs.trans (le_max_right maxScore s))
      · refine max_le (hMa.trans (le_max_left _ _)) ?_
        exact hs_hi.trans (max_le_max le_rfl (le_max_left _ _))
    · rw [if_neg hcut]
      have ha1b : max alpha s < beta := not_le.mp hcut
      have hMa1 : max maxScore s ≤ max alpha s := max_le_max hMa le_rfl
      have hIH := ih (max maxScore s) (max alpha s) ha1b hMa1
      constructor
      · refine le_trans ?_ hIH.1
        rw [min_max_distrib_left, min_max_distrib_left, min_max_distrib_left]
        have h1 : min beta maxScore ≤ min beta (max maxScore s) :=
          min_le_min le_rfl (le_max_left _ _)
        have h2 : min beta c.neg ≤ min beta (max maxScore s) := by
          refine le_trans (le_min (min_le_left _ _) hs_lo) ?_
          exact min_le_min le_rfl (le_max_right _ _)
        exact max_le (h1.trans (le_max_left _ _))
          (max_le (h2.trans (le_max_left _ _)) (le_max_right _ _))
      · refine hIH.2.trans ?_
        refine max_le (max_le (le_max_left _ _) ?_) ?_
        · exact hs_hi.trans (max_le_max le_rfl (le_max_left _ _))
        · exact (le_max_right c.neg R).trans (le_max_right alpha _)

theorem negamax_bounds {Pos M : Type} (e : Engine Pos M) (F : Nat) :
    ∀ (d : Nat) (p : Pos) (alpha beta : Score), alpha < beta →
      min beta (nVal e F d p) ≤ negamax e F d p alpha beta ∧
      negamax e F d p alpha beta ≤ max alpha (nVal e F d p) := by
  intro d
  induction d with
  | zero =>
    intro p alpha beta hab
    simp only [negamax, nVal]
    exact qFuel_bounds e F p alpha beta hab
  | succ d ih =>
    intro p alpha beta hab
    simp only [negamax, nVal]
    by_cases hgo : e.is_game_over p
    · rw [if_pos hgo, if_pos hgo]
      by_cases hcm : e.is_checkmate p
      · rw [if_pos hcm]
        exact ⟨min_le_right _ _, le_max_right _ _⟩
      · rw [if_neg hcm]
        exact ⟨min_le_right _ _, le_max_right _ _⟩
    · rw [if_neg hgo, if_neg hgo]
      have h := nLoopF_bounds e F d p beta ih (nSorted e p) Score.ninf alpha
        hab (ninf_le alpha)
      rwa [max_eq_right (ninf_le _)] at h

/-- A windowed negamax result that did not hit either window edge equals the
full-window value; in particular the full-window value is at least as large. -/
theorem negamax_nonCutoff_eq_full {Pos M : Type} (e : Engine Pos M) (F d : Nat)
    (p : Pos) (alpha beta : Score)
    (hlo : alpha < negamax e F d p alpha beta)
    (hhi : negamax e F d p alpha beta < beta) :
    negamax e F d p alpha beta = negamax e F d p Score.ninf Score.pinf := by
  have hab : alpha < beta := hlo.trans hhi
  have hfull := negamax_bounds e F d p Score.ninf Score.pinf (by decide)
  have hfull_eq : negamax e F d p Score.ninf Score.pinf = nVal e F d p := by
    have h1 := hfull.1
    have h2 := hfull.2
    rw [min_eq_right (le_pinf _)] at h1
    rw [max_eq_right (ninf_le _)] at h2
    exact le_antisymm h2 h1
  have hwin := negamax_bounds e F d p alpha beta hab
  have hle : negamax e F d p alpha beta ≤ nVal e F d p := by
    have hup := hwin.2
    rcases max_cases alpha (nVal e F d p) with ⟨heq, _⟩ | ⟨heq, _⟩
    · rw [heq] at hup
      exact absurd (hlo.trans_le hup) (lt_irrefl alpha)
    · rwa [heq] at hup
  have hge : nVal e F d p ≤ negamax e F d p alpha beta := by
    have hdn := hwin.1
    rcases min_cases beta (nVal e F d p) with ⟨heq, _⟩ | ⟨heq, _⟩
    · rw [heq] at hdn
      exact absurd (hdn.trans_lt hhi) (lt_irrefl beta)
    · rwa [heq] at hdn
  rw [hfull_eq]
  exact le_antisymm hle hge

/-! Mirror symmetry of the evaluator. -/

theorem whiteTableIdx_mirror (sq : Nat) (h : sq < 64) :
    whiteTableIdx (mirrorSquare sq) = blackTableIdx sq := by
  unfold whiteTableIdx blackTableIdx mirrorSquare square_rank square_file
  omega

theorem blackTableIdx_mirror (sq : Nat) (h : sq < 64) :
    blackTableIdx (mirrorSquare sq) = whiteTableIdx sq := by
  unfold whiteTableIdx blackTableIdx mirrorSquare square_rank square_file
  omega

/-- Color-flip of one piece-map entry: reflect the square vertically and swap
the color. -/
def mirrorEntry (x : Nat × Nat × Bool) : Nat × Nat × Bool :=
  (mirrorSquare x.1, x.2.1, !x.2.2)

theorem pieceContrib_mirror (sq pt : Nat) (c : Bool) (h : sq < 64) :
    pieceContrib (mirrorSquare sq) pt (!c) = -(pieceContrib sq pt c) := by
  cases c <;>
    simp [pieceContrib, whiteTableIdx_mirror sq h, blackTableIdx_mirror sq h]

theorem sum_pieceContrib_mirror (l : List (Nat × Nat × Bool))
    (h : ∀ x ∈ l, x.1 < 64) :
    ((l.map mirrorEntry).map (fun x => pieceContrib x.1 x.2.1 x.2.2)).sum =
      -((l.map (fun x => pieceContrib x.1 x.2.1 x.2.2)).sum) := by
  induction l with
  | nil => simp
  | cons a l ih =>
    simp only [List.map_cons, List.sum_cons, mirrorEntry]
    rw [pieceContrib_mirror a.1 a.2.1 a.2.2 (h a (List.mem_cons_self a l)),
      ih (fun x hx => h x (List.mem_cons_of_mem a hx))]
    ring

/-! Finiteness of search results on finite windows. -/

theorem isFinite_neg (s : Score) : s.neg.isFinite = s.isFinite := by
  cases s <;> rfl

theorem ninf_lt_of_isFinite {s : Score} (h : s.isFinite = true) : Score.ninf < s := by
  cases s <;> simp_all [Score.isFinite, lt_def, Score.blt]

theorem ninf_lt_iff {s : Score} : Score.ninf < s ↔ s ≠ Score.ninf := by
  cases s <;> simp [lt_def, Score.blt]

theorem qLoopF_isFinite {Pos M : Type} (e : Engine Pos M)
    (rec : Pos → Score → Score → Score) (p : Pos) (beta : Score)
    (hrec : ∀ (q : Pos) (a b : Score), a.isFinite = true → b.isFinite = true →
      (rec q a b).isFinite = true)
    (hb : beta.isFinite = true) :
    ∀ (ms : List M) (alpha : Score), alpha.isFinite = true →
      (qLoopF e rec p beta ms alpha).isFinite = true := by
  intro ms
  induction ms with
  | nil => intro alpha ha; exact ha
  | cons m rest ih =>
    intro alpha ha
    simp only [qLoopF]
    have hsc : ((rec (e.push p m) beta.neg alpha.neg).neg).isFinite = true := by
      rw [isFinite_neg]
      exact hrec _ _ _ (by rw [isFinite_neg]; exact hb) (by rw [isFinite_neg]; exact ha)
    split
    · exact hb
    · split
      · exact ih _ hsc
      · exact ih _ ha

theorem qFuel_isFinite {Pos M : Type} (e : Engine Pos M) :
    ∀ (f : Nat) (p : Pos) (alpha beta : Score), alpha.isFinite = true →
      beta.isFinite = true → (qFuel e f p alpha beta).isFinite = true := by
  intro f
  induction f with
  | zero => intro p alpha beta ha _; exact ha
  | succ f ih =>
    intro p alpha beta ha hb
    simp only [qFuel]
    by_cases hck : e.is_check p
    · rw [if_pos hck]
      exact qLoopF_isFinite e _ p beta (fun q a b hfa hfb => ih q a b hfa hfb) hb _ _ ha
    · rw [if_neg hck]
      set sp : Score :=
        Score.fin (if e.turn p = false then -(evaluate e p) else evaluate e p) with hsp
      have hspf : sp.isFinite = true := by rw [hsp]; rfl
      by_cases hsb : beta ≤ sp
      · rw [if_pos hsb]
        exact hb
      · rw [if_neg hsb]
        refine qLoopF_isFinite e _ p beta (fun q a b hfa hfb => ih q a b hfa hfb) hb _ _ ?_
        split
        · exact hspf
        · exact ha

theorem nLoopF_isFinite {Pos M : Type} (e : Engine Pos M)
    (rec : Pos → Score → Score → Score) (p : Pos) (beta : Score)
    (hrec : ∀ (q : Pos) (a b : Score), a.isFinite = true → b.isFinite = true →
      (rec q a b).isFinite = true)
    (hb : beta.isFinite = true) :
    ∀ (ms : List M) (maxScore alpha : Score), alpha.isFinite = true →
      (maxScore.isFinite = true ∨ (maxScore = Score.ninf ∧ ms ≠ [])) →
      (nLoopF e rec p beta ms maxScore alpha).isFinite = true := by
  intro ms
  induction ms with
  | nil =>
    intro maxScore alpha _ hm
    rcases hm with hm | ⟨_, hm⟩
    · exact hm
    · exact absurd rfl hm
  | cons m rest ih =>
    intro maxScore alpha ha hm
    simp only [nLoopF]
    set s : Score := (rec (e.push p m) beta.neg alpha.neg).neg with hs
    have hsc : s.isFinite = true := by
      rw [hs, isFinite_neg]
      exact hrec _ _ _ (by rw [isFinite_neg]; exact hb) (by rw [isFinite_neg]; exact ha)
    have hmx1 : (if maxScore < s then s else maxScore).isFinite = true := by
      rcases hm with hmf | ⟨hmn, _⟩
      · split
        · exact hsc
        · exact hmf
      · rw [hmn, if_pos (ninf_lt_of_isFinite hsc)]
        exact hsc
    set mx1 : Score := if maxScore < s then s else maxScore with hmx
    have ha1 : (if alpha < mx1 then mx1 else alpha).isFinite = true := by
      split
      · exact hmx1
      · exact ha
    set a1 : Score := if alpha < mx1 then mx1 else alpha with ha1d
    split
    · exact hmx1
    · exact ih _ _ ha1 (Or.inl hmx1)

theorem sortDesc_eq_nil {M : Type} (key : M → Int) (l : List M)
    (h : sortDesc key l = []) : l = [] := by
  have hl := sortDesc_length key l
  rw [h] at hl
  exact List.length_eq_zero.mp hl.symm

theorem negamax_isFinite {Pos M : Type} (e : Engine Pos M) (F : Nat)
    (hleg : ∀ q, e.legal_moves q = [] → e.is_game_over q = true) :
    ∀ (d : Nat) (p : Pos) (alpha beta : Score), alpha.isFinite = true →
      beta.isFinite = true → (negamax e F d p alpha beta).isFinite = true := by
  intro d
  induction d with
  | zero => intro p a b ha hb; exact qFuel_isFinite e F p a b ha hb
  | succ d ih =>
    intro p a b ha hb
    simp only [negamax]
    split
    · split <;> rfl
    · rename_i hgo
      refine nLoopF_isFinite e _ p b (fun q x y hx hy => ih q x y hx hy) hb _ _ _ ha
        (Or.inr ⟨rfl, ?_⟩)
      intro hnil
      exact hgo (hleg p (sortDesc_eq_nil _ _ hnil))

/-!
A small concrete rules-engine instance used to witness the theorems.
Positions (type `Fin 8`):
`0`: a checkmate position, White to move (in check, no legal moves);
`1`: a stalemate position (no legal moves, not in check);
`2`: a quiet position, one legal non-capture move leading to `3`;
`3`: a quiet leaf, Black to move, one white pawn on a4 (evaluation 100),
     game over by draw rules;
`4`: White pawn on a2, White to move (evaluation 105);
`5`: the color-flipped mirror of `4`: Black pawn on a7, Black to move;
`6`: a single Black pawn on a2 (its 7th rank, about to promote);
`7`: a checkmate position with Black to move.
Every position with an empty move list is game over, as in real chess.
-/
def DemoE : Engine (Fin 8) Nat where
  legal_moves p := if p = 2 then [0] else []
  push p _ := if p = 2 then 3 else 7
  is_check p := decide (p = 0)
  is_checkmate p := decide (p = 0 ∨ p = 7)
  is_stalemate p := decide (p = 1)
  is_insufficient_material _ := false
  is_game_over p := decide (p ≠ 2)
  turn p := decide (p = 0 ∨ p = 1 ∨ p = 2 ∨ p = 4)
  is_capture _ _ := false
  piece_type_at_to _ _ := none
  piece_map p :=
    if p = 3 then [(24, 1, true)]
    else if p = 4 then [(8, 1, true)]
    else if p = 5 then [(48, 1, false)]
    else if p = 6 then [(8, 1, false)]
    else []

/--
C4: for every checkmate position, `evaluate` returns exactly `-99999` when it
is White's turn to move (White is mated) and exactly `99999` when it is
Black's turn to move: the sign is fixed by whose turn it is.
-/
theorem C4_evaluate_checkmate_sign {Pos M : Type} (e : Engine Pos M) (p : Pos)
    (h : e.is_checkmate p = true) :
    evaluate e p = if e.turn p then -99999 else 99999 := by
  simp [evaluate, h]

/--
Witness for C4 at the two checkmate positions of `DemoE`: White mated at
position 0 scores `-99999`, Black mated at position 7 scores `99999`.
-/
theorem C4_evaluate_checkmate_sign_witness :
    DemoE.is_checkmate 0 = true ∧ DemoE.is_checkmate 7 = true ∧
    evaluate DemoE 0 = -99999 ∧ evaluate DemoE 7 = 99999 := by
  refine ⟨by decide, by decide, ?_, ?_⟩
  · rw [C4_evaluate_checkmate_sign DemoE 0 (by decide)]
    decide
  · rw [C4_evaluate_checkmate_sign DemoE 7 (by decide)]
    decide

/--
C5: zero-sum symmetry of the evaluator.  For a position `q` that is the
color-flipped mirror of `p` (same terminal flags, opposite side to move, piece
map reflected across the horizontal axis with colors swapped),
`evaluate p = -(evaluate q)`.
-/
theorem C5_evaluate_zero_sum_mirror {Pos M : Type} (e : Engine Pos M)
    (p q : Pos)
    (hcm : e.is_checkmate q = e.is_checkmate p)
    (hsm : e.is_stalemate q = e.is_stalemate p)
    (him : e.is_insufficient_material q = e.is_insufficient_material p)
    (ht : e.turn q = !e.turn p)
    (hpm : e.piece_map q = (e.piece_map p).map mirrorEntry)
    (hsq : ∀ x ∈ e.piece_map p, x.1 < 64) :
    evaluate e p = -(evaluate e q) := by
  unfold evaluate
  rw [hcm, hsm, him, ht, hpm]
  by_cases h1 : e.is_checkmate p = true
  · rw [if_pos h1, if_pos h1]
    cases htp : e.turn p <;> simp
  · rw [if_neg h1, if_neg h1]
    by_cases h2 : (e.is_stalemate p || e.is_insufficient_material p) = true
    · rw [if_pos h2, if_pos h2]
      simp
    · rw [if_neg h2, if_neg h2]
      rw [sum_pieceContrib_mirror _ hsq]
      ring

/--
Witness for C5: position 4 of `DemoE` (White pawn a2, White to move,
evaluation 105) and its mirror, position 5 (Black pawn a7, Black to move,
evaluation -105).
-/
theorem C5_evaluate_zero_sum_mirror_witness :
    DemoE.piece_map 5 = (DemoE.piece_map 4).map mirrorEntry ∧
    DemoE.turn 5 = !DemoE.turn 4 ∧
    evaluate DemoE 4 = -(evaluate DemoE 5) ∧ evaluate DemoE 4 = 105 := by
  refine ⟨by decide, by decide, ?_, by decide⟩
  exact C5_evaluate_zero_sum_mirror DemoE 4 5 (by decide) (by decide) (by decide)
    (by decide) (by decide) (by decide)

/--
C6: for a Black piece on square `sq`, the positional bonus subtracted by the
evaluator is the white-oriented table value at the vertically reflected square
(rank `r` to rank `7 - r`, same file): the index the source computes for Black
equals the index it would compute for a White piece on `mirrorSquare sq`.
Stated both for the per-piece contribution and for `evaluate` on a position
holding a single Black piece.
-/
theorem C6_black_pst_mirror :
    (∀ sq pt : Nat, sq < 64 →
      pieceContrib sq pt false =
        -(PIECE_VALUES.getD (pt - 1) 0 +
            (pst pt).getD (whiteTableIdx (mirrorSquare sq)) 0)) ∧
    (∀ (Pos M : Type) (e : Engine Pos M) (p : Pos) (sq pt : Nat), sq < 64 →
      e.is_checkmate p = false → e.is_stalemate p = false →
      e.is_insufficient_material p = false →
      e.piece_map p = [(sq, pt, false)] →
      evaluate e p =
        -(PIECE_VALUES.getD (pt - 1) 0 +
            (pst pt).getD (whiteTableIdx (mirrorSquare sq)) 0)) := by
  have hbase : ∀ sq pt : Nat, sq < 64 →
      pieceContrib sq pt false =
        -(PIECE_VALUES.getD (pt - 1) 0 +
            (pst pt).getD (whiteTableIdx (mirrorSquare sq)) 0) := by
    intro sq pt h
    rw [whiteTableIdx_mirror sq h]
    rfl
  refine ⟨hbase, ?_⟩
  intro Pos M e p sq pt h hcm hsm him hpm
  unfold evaluate
  rw [hcm, hsm, him, hpm]
  simp only [Bool.false_eq_true, if_false, Bool.or_self, List.map_cons,
    List.map_nil, List.sum_cons, List.sum_nil, add_zero]
  exact hbase sq pt h

/--
Witness for C6: a Black pawn on a2 (square 8, Black's 7th rank, one step from
promotion) receives the table row worth 50 that a White pawn on a7 (the
mirrored square 48) would receive, so its contribution is `-(100 + 50)`;
position 6 of `DemoE` evaluates accordingly.
-/
theorem C6_black_pst_mirror_witness :
    pieceContrib 8 1 false =
      -(PIECE_VALUES.getD 0 0 + (pst 1).getD (whiteTableIdx (mirrorSquare 8)) 0) ∧
    pieceContrib 8 1 false = -150 ∧ mirrorSquare 8 = 48 ∧
    evaluate DemoE 6 = -150 := by
  refine ⟨C6_black_pst_mirror.1 8 1 (by decide), by decide, by decide, ?_⟩
  rw [C6_black_pst_mirror.2 (Fin 8) Nat DemoE 6 8 1 (by decide) (by decide)
    (by decide) (by decide) (by decide)]
  decide

/--
C3: negamax terminal scoring.  For every position the rules engine reports as
game over and every remaining depth `d > 0`, `negamax` returns `-99999 + d`
when the position is checkmate and `0` for every other game-over condition,
independent of the alpha/beta window.
-/
theorem C3_negamax_terminal_scoring {Pos M : Type} (e : Engine Pos M)
    (F d : Nat) (p : Pos) (alpha beta : Score)
    (hgo : e.is_game_over p = true) (hd : 0 < d) :
    negamax e F d p alpha beta =
      if e.is_checkmate p then Score.fin (-99999 + (d : Int)) else Score.fin 0 := by
  cases d with
  | zero => exact absurd hd (lt_irrefl 0)
  | succ d =>
    simp only [negamax]
    rw [if_pos hgo]
    split
    · congr 1 <;> omega
    · rfl

/--
Witness for C3: the checkmate position 0 of `DemoE` at remaining depth 1
scores `-99998`, and the drawn position 1 scores `0`, for an arbitrary window.
-/
theorem C3_negamax_terminal_scoring_witness :
    DemoE.is_game_over 0 = true ∧ 0 < 1 ∧
    negamax DemoE 3 1 0 Score.ninf Score.pinf = Score.fin (-99998) ∧
    negamax DemoE 3 2 1 (Score.fin (-5)) (Score.fin 5) = Score.fin 0 := by
  refine ⟨by decide, by decide, ?_, ?_⟩
  · rw [C3_negamax_terminal_scoring DemoE 3 1 0 Score.ninf Score.pinf
      (by decide) (by decide)]
    decide
  · rw [C3_negamax_terminal_scoring DemoE 3 2 1 (Score.fin (-5)) (Score.fin 5)
      (by decide) (by decide)]
    decide

/--
C10: at a position where the side to move is in check and has no legal moves
(a checkmate position), `quiescence` skips the stand-pat evaluation, iterates
over zero candidate moves, and returns its `alpha` argument unchanged; it
never produces a mate score.
-/
theorem C10_quiescence_checkmate_returns_alpha {Pos M : Type}
    (e : Engine Pos M) (f : Nat) (p : Pos) (alpha beta : Score)
    (hck : e.is_check p = true) (hnm : e.legal_moves p = []) :
    qFuel e f p alpha beta = alpha := by
  cases f with
  | zero => rfl
  | succ f =>
    simp only [qFuel]
    rw [if_pos hck]
    have hq : qSorted e p = [] := by
      simp [qSorted, hck, hnm, sortDesc]
    rw [hq]
    rfl

/--
Witness for C10 at the checkmate position 0 of `DemoE`: with
`alpha = -infinity` the quiescence search returns `-infinity` itself.
-/
theorem C10_quiescence_checkmate_returns_alpha_witness :
    DemoE.is_check 0 = true ∧ DemoE.legal_moves 0 = [] ∧
    qFuel DemoE 3 0 Score.ninf Score.pinf = Score.ninf := by
  refine ⟨by decide, by decide, ?_⟩
  exact C10_quiescence_checkmate_returns_alpha DemoE 3 0 Score.ninf Score.pinf
    (by decide) (by decide)

/--
Counterexample to C2 as stated: at the checkmate position 0 of `DemoE`
(reachable in chess, e.g. any mated position searched at depth 0), quiescence
called on the full window returns the negative-infinity sentinel, and so does
`negamax` at depth 0: non-finite sentinels do escape the search on infinite
windows.
-/
theorem C2_counterexample :
    DemoE.is_check 0 = true ∧ DemoE.is_checkmate 0 = true ∧
    qFuel DemoE 3 0 Score.ninf Score.pinf = Score.ninf ∧
    (qFuel DemoE 3 0 Score.ninf Score.pinf).isFinite = false ∧
    negamax DemoE 3 0 0 Score.ninf Score.pinf = Score.ninf ∧
    (negamax DemoE 3 0 0 Score.ninf Score.pinf).isFinite = false := by
  decide

/--
C2 amended: no non-finite sentinel escapes the search on finite windows.  For
every rules engine in which an empty legal-move list implies game over (true
of chess), every fuel, depth and position, and every finite alpha/beta window,
the values returned by quiescence and by negamax are finite integers.  (On
infinite windows the property fails; see the counterexample.)
-/
theorem C2_finite_window_no_sentinel {Pos M : Type} (e : Engine Pos M)
    (F : Nat)
    (hleg : ∀ q, e.legal_moves q = [] → e.is_game_over q = true) :
    (∀ (f : Nat) (p : Pos) (a b : Int),
      (qFuel e f p (Score.fin a) (Score.fin b)).isFinite = true) ∧
    (∀ (d : Nat) (p : Pos) (a b : Int),
      (negamax e F d p (Score.fin a) (Score.fin b)).isFinite = true) := by
  constructor
  · intro f p a b
    exact qFuel_isFinite e f p _ _ rfl rfl
  · intro d p a b
    exact negamax_isFinite e F hleg d p _ _ rfl rfl

/--
Witness for C2 amended: `DemoE` satisfies the empty-moves-implies-game-over
contract, and searches from position 2 on the finite window `[-1000, 1000]`
return finite scores.
-/
theorem C2_finite_window_no_sentinel_witness :
    (∀ q, DemoE.legal_moves q = [] → DemoE.is_game_over q = true) ∧
    (qFuel DemoE 2 2 (Score.fin (-1000)) (Score.fin 1000)).isFinite = true ∧
    (negamax DemoE 3 2 2 (Score.fin (-1000)) (Score.fin 1000)).isFinite = true := by
  refine ⟨by decide, ?_, ?_⟩
  · exact (C2_finite_window_no_sentinel DemoE 3 (by decide)).1 2 2 (-1000) 1000
  · exact (C2_finite_window_no_sentinel DemoE 3 (by decide)).2 2 2 (-1000) 1000

/--
C8: window monotonicity.  For a fixed position, depth and quiescence fuel, if
a windowed negamax call produced a non-cutoff result (a score strictly inside
its `[alpha, beta]` window), then re-running with the full window
`alpha = -infinity, beta = +infinity` returns a score at least as large (in
fact equal).
-/
theorem C8_window_monotonicity {Pos M : Type} (e : Engine Pos M) (F d : Nat)
    (p : Pos) (alpha beta : Score)
    (hlo : alpha < negamax e F d p alpha beta)
    (hhi : negamax e F d p alpha beta < beta) :
    negamax e F d p alpha beta ≤ negamax e F d p Score.ninf Score.pinf :=
  le_of_eq (negamax_nonCutoff_eq_full e F d p alpha beta hlo hhi)

/--
Witness for C8: from position 2 of `DemoE` at depth 1, the window `[0, 200]`
yields the non-cutoff score 100, which the full-window search matches.
-/
theorem C8_window_monotonicity_witness :
    Score.fin 0 < negamax DemoE 3 1 2 (Score.fin 0) (Score.fin 200) ∧
    negamax DemoE 3 1 2 (Score.fin 0) (Score.fin 200) < Score.fin 200 ∧
    negamax DemoE 3 1 2 (Score.fin 0) (Score.fin 200) ≤
      negamax DemoE 3 1 2 Score.ninf Score.pinf := by
  refine ⟨by decide, by decide, ?_⟩
  exact C8_window_monotonicity DemoE 3 1 2 (Score.fin 0) (Score.fin 200)
    (by decide) (by decide)

/--
C9: strict push/undo discipline.  In the state-threading model of the mutable
board, every call to quiescence, negamax and the iterative-deepening driver
returns the board state-for-state identical to its state on entry (current
position and undo stack), on every exit path including beta cutoffs and the
driver's timeout break.
-/
theorem C9_push_undo_discipline :
    ∀ (Pos M : Type) (e : Engine Pos M) (b : MBoard Pos),
      (∀ (f : Nat) (alpha beta : Score), (qFuelS e f b alpha beta).2 = b) ∧
      (∀ (F d : Nat) (alpha beta : Score), (negamaxS e F d b alpha beta).2 = b) ∧
      (∀ (F : Nat) (clock : Nat → Bool), (get_best_moveS e F clock b).2 = b) := by
  intro Pos M e b
  refine ⟨fun f alpha beta => ?_, fun F d alpha beta => ?_, fun F clock => ?_⟩
  · rw [qFuelS_eq]
  · rw [negamaxS_eq]
  · rw [get_best_moveS_eq]

/-!
The iteration sequence of the driver.  Iteration `i` (numbered from 0)
searches depth `i + 1`; `itStart` is the clock-read counter at its beginning
and `itRes` its root-loop result.
-/

/-- Clock-read counter at the start of driver iteration `i`. -/
def itStart {Pos M : Type} (e : Engine Pos M) (F : Nat) (clock : Nat → Bool)
    (p : Pos) (ms : List M) : Nat → Nat
  | 0 => 0
  | i + 1 =>
    (rootLoop e F clock (i + 1) p ms none Score.ninf Score.ninf Score.pinf
      (itStart e F clock p ms i)).t + 1

/-- Root-loop result of driver iteration `i` (depth `i + 1`). -/
def itRes {Pos M : Type} (e : Engine Pos M) (F : Nat) (clock : Nat → Bool)
    (p : Pos) (ms : List M) (i : Nat) : RLRes M :=
  rootLoop e F clock (i + 1) p ms none Score.ninf Score.ninf Score.pinf
    (itStart e F clock p ms i)

theorem idLoop_succ_eq {Pos M : Type} (e : Engine Pos M) (F : Nat)
    (clock : Nat → Bool) (p : Pos) (ms : List M) (k cd : Nat) (bm : Option M)
    (t : Nat) :
    idLoop e F clock p ms (k + 1) cd bm t =
      if clock (rootLoop e F clock cd p ms none Score.ninf Score.ninf
          Score.pinf t).t then
        (if (rootLoop e F clock cd p ms none Score.ninf Score.ninf
              Score.pinf t).dbm.isSome && bm.isNone then
          (rootLoop e F clock cd p ms none Score.ninf Score.ninf
            Score.pinf t).dbm
        else bm)
      else
        idLoop e F clock p ms k (cd + 1)
          (rootLoop e F clock cd p ms none Score.ninf Score.ninf
            Score.pinf t).dbm
          ((rootLoop e F clock cd p ms none Score.ninf Score.ninf
            Score.pinf t).t + 1) := rfl

theorem isEmpty_eq_false_of_ne_nil {α : Type} {l : List α} (h : l ≠ []) :
    l.isEmpty = false := by
  cases l with
  | nil => exact absurd rfl h
  | cons a l => rfl

theorem get_best_move_ne_nil {Pos M : Type} (e : Engine Pos M) (F : Nat)
    (clock : Nat → Bool) (p : Pos) (hne : e.legal_moves p ≠ []) :
    get_best_move e F clock p = idLoop e F clock p (rootSorted e p) 4 1 none 0 := by
  simp only [get_best_move]
  rw [isEmpty_eq_false_of_ne_nil hne]
  rfl

/-- With a clock that never reports the budget exceeded, the driver runs all
four depth iterations and returns the best move of the last one. -/
theorem idLoop_noTimeout {Pos M : Type} (e : Engine Pos M) (F : Nat)
    (clock : Nat → Bool) (p : Pos) (hclk : ∀ i, clock i = false)
    (hne : e.legal_moves p ≠ []) :
    get_best_move e F clock p = (itRes e F clock p (rootSorted e p) 3).dbm := by
  rw [get_best_move_ne_nil e F clock p hne]
  rw [idLoop_succ_eq]
  rw [show rootLoop e F clock 1 p (rootSorted e p) none Score.ninf Score.ninf
      Score.pinf 0 = itRes e F clock p (rootSorted e p) 0 from rfl]
  rw [hclk, if_neg Bool.false_ne_true]
  rw [idLoop_succ_eq]
  rw [show rootLoop e F clock 2 p (rootSorted e p) none Score.ninf Score.ninf
      Score.pinf ((itRes e F clock p (rootSorted e p) 0).t + 1) =
      itRes e F clock p (rootSorted e p) 1 from rfl]
  rw [hclk, if_neg Bool.false_ne_true]
  rw [idLoop_succ_eq]
  rw [show rootLoop e F clock 3 p (rootSorted e p) none Score.ninf Score.ninf
      Score.pinf ((itRes e F clock p (rootSorted e p) 1).t + 1) =
      itRes e F clock p (rootSorted e p) 2 from rfl]
  rw [hclk, if_neg Bool.false_ne_true]
  rw [idLoop_succ_eq]
  rw [show rootLoop e F clock 4 p (rootSorted e p) none Score.ninf Score.ninf
      Score.pinf ((itRes e F clock p (rootSorted e p) 2).t + 1) =
      itRes e F clock p (rootSorted e p) 3 from rfl]
  rw [hclk, if_neg Bool.false_ne_true]
  rfl

theorem rootLoop_dbm_isSome {Pos M : Type} (e : Engine Pos M) (F : Nat)
    (clock : Nat → Bool) (d : Nat) (p : Pos) :
    ∀ (ms : List M) (dbm : Option M) (dbs alpha beta : Score) (t : Nat),
      dbm.isSome = true →
      ((rootLoop e F clock d p ms dbm dbs alpha beta t).dbm).isSome = true := by
  intro ms
  induction ms with
  | nil => intro dbm dbs alpha beta t h; exact h
  | cons m rest ih =>
    intro dbm dbs alpha beta t h
    simp only [rootLoop]
    set s : Score := (negamax e F (d - 1) (e.push p m) beta.neg alpha.neg).neg
    have h1 : (if dbs < s then some m else dbm).isSome = true := by
      split
      · rfl
      · exact h
    split
    · exact h1
    · exact ih _ _ _ _ _ h1

theorem rootLoop_head_isSome {Pos M : Type} (e : Engine Pos M) (F : Nat)
    (clock : Nat → Bool) (d : Nat) (p : Pos) (m : M) (rest : List M) (t : Nat)
    (h : Score.ninf <
      (negamax e F (d - 1) (e.push p m) Score.pinf.neg Score.ninf.neg).neg) :
    ((rootLoop e F clock d p (m :: rest) none Score.ninf Score.ninf
        Score.pinf t).dbm).isSome = true := by
  simp only [rootLoop]
  rw [if_pos h, if_pos h]
  split
  · rfl
  · exact rootLoop_dbm_isSome e F clock d p rest _ _ _ _ _ rfl

/-!
Exact control flow of the driver for an arbitrary clock.  The branching of
the iterative-deepening loop depends only on the four post-iteration clock
reads `clock (itRes i).t`; the following lemmas give the returned move in
each of the five possible cases (first exceeded post-check at iteration
0, 1, 2 or 3, or never), assuming nothing about the other clock reads.
-/

theorem gbm_timeout0 {Pos M : Type} (e : Engine Pos M) (F : Nat)
    (clock : Nat → Bool) (p : Pos) (hne : e.legal_moves p ≠ [])
    (h0 : clock (itRes e F clock p (rootSorted e p) 0).t = true) :
    get_best_move e F clock p = (itRes e F clock p (rootSorted e p) 0).dbm := by
  rw [get_best_move_ne_nil e F clock p hne]
  rw [idLoop_succ_eq]
  rw [show rootLoop e F clock 1 p (rootSorted e p) none Score.ninf Score.ninf
      Score.pinf 0 = itRes e F clock p (rootSorted e p) 0 from rfl]
  rw [h0, if_pos rfl]
  cases hdbm : (itRes e F clock p (rootSorted e p) 0).dbm with
  | none => simp [hdbm]
  | some m => simp [hdbm]

theorem gbm_timeout1 {Pos M : Type} (e : Engine Pos M) (F : Nat)
    (clock : Nat → Bool) (p : Pos) (hne : e.legal_moves p ≠ [])
    (h0 : clock (itRes e F clock p (rootSorted e p) 0).t = false)
    (h1 : clock (itRes e F clock p (rootSorted e p) 1).t = true) :
    get_best_move e F clock p =
      (if (itRes e F clock p (rootSorted e p) 1).dbm.isSome &&
          (itRes e F clock p (rootSorted e p) 0).dbm.isNone then
        (itRes e F clock p (rootSorted e p) 1).dbm
      else (itRes e F clock p (rootSorted e p) 0).dbm) := by
  rw [get_best_move_ne_nil e F clock p hne]
  rw [idLoop_succ_eq]
  rw [show rootLoop e F clock 1 p (rootSorted e p) none Score.ninf Score.ninf
      Score.pinf 0 = itRes e F clock p (rootSorted e p) 0 from rfl]
  rw [h0, if_neg Bool.false_ne_true]
  rw [idLoop_succ_eq]
  rw [show rootLoop e F clock 2 p (rootSorted e p) none Score.ninf Score.ninf
      Score.pinf ((itRes e F clock p (rootSorted e p) 0).t + 1) =
      itRes e F clock p (rootSorted e p) 1 from rfl]
  rw [h1, if_pos rfl]

theorem gbm_timeout2 {Pos M : Type} (e : Engine Pos M) (F : Nat)
    (clock : Nat → Bool) (p : Pos) (hne : e.legal_moves p ≠ [])
    (h0 : clock (itRes e F clock p (rootSorted e p) 0).t = false)
    (h1 : clock (itRes e F clock p (rootSorted e p) 1).t = false)
    (h2 : clock (itRes e F clock p (rootSorted e p) 2).t = true) :
    get_best_move e F clock p =
      (if (itRes e F clock p (rootSorted e p) 2).dbm.isSome &&
          (itRes e F clock p (rootSorted e p) 1).dbm.isNone then
        (itRes e F clock p (rootSorted e p) 2).dbm
      else (itRes e F clock p (rootSorted e p) 1).dbm) := by
  rw [get_best_move_ne_nil e F clock p hne]
  rw [idLoop_succ_eq]
  rw [show rootLoop e F clock 1 p (rootSorted e p) none Score.ninf Score.ninf
      Score.pinf 0 = itRes e F clock p (rootSorted e p) 0 from rfl]
  rw [h0, if_neg Bool.false_ne_true]
  rw [idLoop_succ_eq]
  rw [show rootLoop e F clock 2 p (rootSorted e p) none Score.ninf Score.ninf
      Score.pinf ((itRes e F clock p (rootSorted e p) 0).t + 1) =
      itRes e F clock p (rootSorted e p) 1 from rfl]
  rw [h1, if_neg Bool.false_ne_true]
  rw [idLoop_succ_eq]
  rw [show rootLoop e F clock 3 p (rootSorted e p) none Score.ninf Score.ninf
      Score.pinf ((itRes e F clock p (rootSorted e p) 1).t + 1) =
      itRes e F clock p (rootSorted e p) 2 from rfl]
  rw [h2, if_pos rfl]

theorem gbm_timeout3 {Pos M : Type} (e : Engine Pos M) (F : Nat)
    (clock : Nat → Bool) (p : Pos) (hne : e.legal_moves p ≠ [])
    (h0 : clock (itRes e F clock p (rootSorted e p) 0).t = false)
    (h1 : clock (itRes e F clock p (rootSorted e p) 1).t = false)
    (h2 : clock (itRes e F clock p (rootSorted e p) 2).t = false)
    (h3 : clock (itRes e F clock p (rootSorted e p) 3).t = true) :
    get_best_move e F clock p =
      (if (itRes e F clock p (rootSorted e p) 3).dbm.isSome &&
          (itRes e F clock p (rootSorted e p) 2).dbm.isNone then
        (itRes e F clock p (rootSorted e p) 3).dbm
      else (itRes e F clock p (rootSorted e p) 2).dbm) := by
  rw [get_best_move_ne_nil e F clock p hne]
  rw [idLoop_succ_eq]
  rw [show rootLoop e F clock 1 p (rootSorted e p) none Score.ninf Score.ninf
      Score.pinf 0 = itRes e F clock p (rootSorted e p) 0 from rfl]
  rw [h0, if_neg Bool.false_ne_true]
  rw [idLoop_succ_eq]
  rw [show rootLoop e F clock 2 p (rootSorted e p) none Score.ninf Score.ninf
      Score.pinf ((itRes e F clock p (rootSorted e p) 0).t + 1) =
      itRes e F clock p (rootSorted e p) 1 from rfl]
  rw [h1, if_neg Bool.false_ne_true]
  rw [idLoop_succ_eq]
  rw [show rootLoop e F clock 3 p (rootSorted e p) none Score.ninf Score.ninf
      Score.pinf ((itRes e F clock p (rootSorted e p) 1).t + 1) =
      itRes e F clock p (rootSorted e p) 2 from rfl]
  rw [h2, if_neg Bool.false_ne_true]
  rw [idLoop_succ_eq]
  rw [show rootLoop e F clock 4 p (rootSorted e p) none Score.ninf Score.ninf
      Score.pinf ((itRes e F clock p (rootSorted e p) 2).t + 1) =
      itRes e F clock p (rootSorted e p) 3 from rfl]
  rw [h3, if_pos rfl]

theorem gbm_noPostTimeout {Pos M : Type} (e : Engine Pos M) (F : Nat)
    (clock : Nat → Bool) (p : Pos) (hne : e.legal_moves p ≠ [])
    (h0 : clock (itRes e F clock p (rootSorted e p) 0).t = false)
    (h1 : clock (itRes e F clock p (rootSorted e p) 1).t = false)
    (h2 : clock (itRes e F clock p (rootSorted e p) 2).t = false)
    (h3 : clock (itRes e F clock p (rootSorted e p) 3).t = false) :
    get_best_move e F clock p = (itRes e F clock p (rootSorted e p) 3).dbm := by
  rw [get_best_move_ne_nil e F clock p hne]
  rw [idLoop_succ_eq]
  rw [show rootLoop e F clock 1 p (rootSorted e p) none Score.ninf Score.ninf
      Score.pinf 0 = itRes e F clock p (rootSorted e p) 0 from rfl]
  rw [h0, if_neg Bool.false_ne_true]
  rw [idLoop_succ_eq]
  rw [show rootLoop e F clock 2 p (rootSorted e p) none Score.ninf Score.ninf
      Score.pinf ((itRes e F clock p (rootSorted e p) 0).t + 1) =
      itRes e F clock p (rootSorted e p) 1 from rfl]
  rw [h1, if_neg Bool.false_ne_true]
  rw [idLoop_succ_eq]
  rw [show rootLoop e F clock 3 p (rootSorted e p) none Score.ninf Score.ninf
      Score.pinf ((itRes e F clock p (rootSorted e p) 1).t + 1) =
      itRes e F clock p (rootSorted e p) 2 from rfl]
  rw [h2, if_neg Bool.false_ne_true]
  rw [idLoop_succ_eq]
  rw [show rootLoop e F clock 4 p (rootSorted e p) none Score.ninf Score.ninf
      Score.pinf ((itRes e F clock p (rootSorted e p) 2).t + 1) =
      itRes e F clock p (rootSorted e p) 3 from rfl]
  rw [h3, if_neg Bool.false_ne_true]
  rfl

/-- The driver's timeout fallback `if depth_best_move and not best_move`
yields `None` exactly when neither option holds a move. -/
theorem fallback_none_iff {M : Type} (a b : Option M) :
    (if a.isSome && b.isNone then a else b) = none ↔ a = none ∧ b = none := by
  cases a <;> cases b <;> simp

/--
Exact characterization of the driver's `None` result, for every position and
every clock: `get_best_move` returns `None` precisely when the root has no
legal moves, or the first iteration whose post-loop clock check observes the
budget exceeded recorded no depth-best move and neither did the iteration
adopted before it (for iteration 0 there is no predecessor), or no post-loop
check ever observes the budget exceeded and the depth-4 iteration recorded no
depth-best move.
-/
theorem gbm_eq_none_iff {Pos M : Type} (e : Engine Pos M) (F : Nat)
    (clock : Nat → Bool) (p : Pos) :
    get_best_move e F clock p = none ↔
      (e.legal_moves p = [] ∨
       (clock (itRes e F clock p (rootSorted e p) 0).t = true ∧
         (itRes e F clock p (rootSorted e p) 0).dbm = none) ∨
       (clock (itRes e F clock p (rootSorted e p) 0).t = false ∧
         clock (itRes e F clock p (rootSorted e p) 1).t = true ∧
         (itRes e F clock p (rootSorted e p) 1).dbm = none ∧
         (itRes e F clock p (rootSorted e p) 0).dbm = none) ∨
       (clock (itRes e F clock p (rootSorted e p) 0).t = false ∧
         clock (itRes e F clock p (rootSorted e p) 1).t = false ∧
         clock (itRes e F clock p (rootSorted e p) 2).t = true ∧
         (itRes e F clock p (rootSorted e p) 2).dbm = none ∧
         (itRes e F clock p (rootSorted e p) 1).dbm = none) ∨
       (clock (itRes e F clock p (rootSorted e p) 0).t = false ∧
         clock (itRes e F clock p (rootSorted e p) 1).t = false ∧
         clock (itRes e F clock p (rootSorted e p) 2).t = false ∧
         clock (itRes e F clock p (rootSorted e p) 3).t = true ∧
         (itRes e F clock p (rootSorted e p) 3).dbm = none ∧
         (itRes e F clock p (rootSorted e p) 2).dbm = none) ∨
       (clock (itRes e F clock p (rootSorted e p) 0).t = false ∧
         clock (itRes e F clock p (rootSorted e p) 1).t = false ∧
         clock (itRes e F clock p (rootSorted e p) 2).t = false ∧
         clock (itRes e F clock p (rootSorted e p) 3).t = false ∧
         (itRes e F clock p (rootSorted e p) 3).dbm = none)) := by
  by_cases hleg : e.legal_moves p = []
  · constructor
    · intro _
      exact Or.inl hleg
    · intro _
      simp [get_best_move, hleg]
  · cases h0 : clock (itRes e F clock p (rootSorted e p) 0).t with
    | true =>
      rw [gbm_timeout0 e F clock p hleg h0]
      simp [hleg]
    | false =>
      cases h1 : clock (itRes e F clock p (rootSorted e p) 1).t with
      | true =>
        rw [gbm_timeout1 e F clock p hleg h0 h1, fallback_none_iff]
        simp [hleg]
      | false =>
        cases h2 : clock (itRes e F clock p (rootSorted e p) 2).t with
        | true =>
          rw [gbm_timeout2 e F clock p hleg h0 h1 h2, fallback_none_iff]
          simp [hleg]
        | false =>
          cases h3 : clock (itRes e F clock p (rootSorted e p) 3).t with
          | true =>
            rw [gbm_timeout3 e F clock p hleg h0 h1 h2 h3, fallback_none_iff]
            simp [hleg]
          | false =>
            rw [gbm_noPostTimeout e F clock p hleg h0 h1 h2 h3]
            simp [hleg]

/--
Counterexample engine for C7, realizing a chess scenario in which the only
root move is answered by an immediate mating capture.  Positions: `0` the root
(one legal move to `1`); `1` the opponent to move, holding a capture to `2`;
`2` a checkmate position (in check, no legal moves); `3` a sink.  At depth 1
the root move's quiescence score is minus infinity (the capture tree reaches
the mate), so the depth-best move stays `None`.
-/
def E7cx : Engine (Fin 4) Nat where
  legal_moves p := if p = 0 then [0] else if p = 1 then [0] else []
  push p _ := if p = 0 then 1 else if p = 1 then 2 else 3
  is_check p := decide (p = 2)
  is_checkmate p := decide (p = 2)
  is_stalemate _ := false
  is_insufficient_material _ := false
  is_game_over p := decide (p = 2 ∨ p = 3)
  turn p := decide (p = 0 ∨ p = 2)
  is_capture p _ := decide (p = 1)
  piece_type_at_to _ _ := some 1
  piece_map _ := []

/--
Counterexample to C7 as stated: `E7cx` has a legal move at the root, yet with
a budget that is already exceeded at the first clock read, `get_best_move`
returns the no-legal-move signal `none`: the root move's depth-1 score is the
minus-infinity sentinel, so no depth-best move is ever recorded and the
timeout fallback has nothing to keep.
-/
theorem C7_counterexample :
    E7cx.legal_moves 0 ≠ [] ∧
    get_best_move E7cx 3 (fun _ => true) 0 = none := by
  decide

/--
C7 corrected: (i) an empty root move list yields the `none` signal; (ii) at a
stalemate position (not checkmate, no legal moves) the evaluation is exactly 0
and the driver signals `none`; (iii) the exact `None` condition, for every
position and every budget: `get_best_move` returns `none` precisely when the
root has no legal moves, or the first iteration whose post-loop clock check
observes the budget exceeded recorded no depth-best move and neither did the
previously adopted iteration (iteration 0 having no predecessor), or no
post-loop check ever observes the budget exceeded and the depth-4 iteration
recorded no depth-best move; in every other case exactly one move is
returned.  (As stated the claim is false: a position whose searched root
scores are all minus infinity can yield `none` on a nonempty move set; see
the counterexample.)
-/
theorem C7_driver_totality {Pos M : Type} (e : Engine Pos M) (F : Nat)
    (clock : Nat → Bool) (p : Pos) :
    (e.legal_moves p = [] → get_best_move e F clock p = none) ∧
    (e.is_stalemate p = true → e.is_checkmate p = false →
      e.legal_moves p = [] →
      evaluate e p = 0 ∧ get_best_move e F clock p = none) ∧
    (get_best_move e F clock p = none ↔
      (e.legal_moves p = [] ∨
       (clock (itRes e F clock p (rootSorted e p) 0).t = true ∧
         (itRes e F clock p (rootSorted e p) 0).dbm = none) ∨
       (clock (itRes e F clock p (rootSorted e p) 0).t = false ∧
         clock (itRes e F clock p (rootSorted e p) 1).t = true ∧
         (itRes e F clock p (rootSorted e p) 1).dbm = none ∧
         (itRes e F clock p (rootSorted e p) 0).dbm = none) ∨
       (clock (itRes e F clock p (rootSorted e p) 0).t = false ∧
         clock (itRes e F clock p (rootSorted e p) 1).t = false ∧
         clock (itRes e F clock p (rootSorted e p) 2).t = true ∧
         (itRes e F clock p (rootSorted e p) 2).dbm = none ∧
         (itRes e F clock p (rootSorted e p) 1).dbm = none) ∨
       (clock (itRes e F clock p (rootSorted e p) 0).t = false ∧
         clock (itRes e F clock p (rootSorted e p) 1).t = false ∧
         clock (itRes e F clock p (rootSorted e p) 2).t = false ∧
         clock (itRes e F clock p (rootSorted e p) 3).t = true ∧
         (itRes e F clock p (rootSorted e p) 3).dbm = none ∧
         (itRes e F clock p (rootSorted e p) 2).dbm = none) ∨
       (clock (itRes e F clock p (rootSorted e p) 0).t = false ∧
         clock (itRes e F clock p (rootSorted e p) 1).t = false ∧
         clock (itRes e F clock p (rootSorted e p) 2).t = false ∧
         clock (itRes e F clock p (rootSorted e p) 3).t = false ∧
         (itRes e F clock p (rootSorted e p) 3).dbm = none))) := by
  refine ⟨?_, ?_, ?_⟩
  · intro h
    simp [get_best_move, h]
  · intro hst hcm h
    constructor
    · simp [evaluate, hcm, hst]
    · simp [get_best_move, h]
  · exact gbm_eq_none_iff e F clock p

/--
Witness for C7 corrected: (i) the moveless position 3 of `DemoE` yields
`none`; (ii) the stalemate position 1 evaluates to 0 and yields `none`;
(iii) the `None` characterization applied in both directions: on `E7cx` with
an exhausted budget the all-sentinel first iteration forces `none` despite a
legal root move, while on `DemoE` from position 2 with no timeout no disjunct
holds, so some move is returned.
-/
theorem C7_driver_totality_witness :
    get_best_move DemoE 3 (fun _ => false) 3 = none ∧
    (evaluate DemoE 1 = 0 ∧ get_best_move DemoE 3 (fun _ => false) 1 = none) ∧
    E7cx.legal_moves 0 ≠ [] ∧
    get_best_move E7cx 3 (fun _ => true) 0 = none ∧
    (get_best_move DemoE 3 (fun _ => false) 2).isSome = true := by
  refine ⟨?_, ?_, by decide, ?_, ?_⟩
  · exact (C7_driver_totality DemoE 3 (fun _ => false) 3).1 (by decide)
  · exact (C7_driver_totality DemoE 3 (fun _ => false) 1).2.1 (by decide)
      (by decide) (by decide)
  · exact (C7_driver_totality E7cx 3 (fun _ => true) 0).2.2.mpr
      (Or.inr (Or.inl (by decide)))
  · have hnone : ¬get_best_move DemoE 3 (fun _ => false) 2 = none := fun h =>
      absurd ((C7_driver_totality DemoE 3 (fun _ => false) 2).2.2.mp h)
        (by decide)
    cases hgb : get_best_move DemoE 3 (fun _ => false) 2 with
    | none => exact absurd hgb hnone
    | some m => rfl

/--
Counterexample engine for C1.  A root (position 0) with two quiet moves to
positions 1 and 2; position 1 continues to 3, position 2 to 4.  Evaluations
(white-positive): 1 scores 150, 2 scores 100, 3 scores 100, 4 scores 150, so
the depth-1 iteration prefers move 0 and the depth-2 iteration prefers move 1.
-/
def Ecx1 : Engine (Fin 6) Nat where
  legal_moves p :=
    if p = 0 then [0, 1] else if p = 1 then [0] else if p = 2 then [0] else []
  push p m :=
    if p = 0 then (if m = 0 then 1 else 2)
    else if p = 1 then 3 else if p = 2 then 4 else 5
  is_check _ := false
  is_checkmate _ := false
  is_stalemate _ := false
  is_insufficient_material _ := false
  is_game_over p := decide (p = 3 ∨ p = 4 ∨ p = 5)
  turn p := decide (p = 0 ∨ p = 3 ∨ p = 4)
  is_capture _ _ := false
  piece_type_at_to _ _ := none
  piece_map p :=
    if p = 1 then [(48, 1, true)]
    else if p = 2 then [(24, 1, true)]
    else if p = 3 then [(24, 1, true)]
    else if p = 4 then [(48, 1, true)]
    else []

/-- Clock for the C1 counterexample: the budget is observed exceeded from the
sixth read on, which is the post-iteration check of the depth-2 iteration. -/
def clockCx1 : Nat → Bool := fun i => decide (5 ≤ i)

/--
Counterexample to C1 as stated: on `Ecx1` the depth-2 iteration runs through
every root move (`completed = true`) and prefers move 1, the budget is first
observed exceeded at that iteration's post-loop clock read, yet the driver
discards the fully completed depth-2 result and returns depth 1's move 0.
The claim, which keeps the best move of the deepest fully completed depth,
predicts move 1.
-/
theorem C1_counterexample :
    (itRes Ecx1 3 clockCx1 0 (rootSorted Ecx1 0) 1).completed = true ∧
    clockCx1 (itRes Ecx1 3 clockCx1 0 (rootSorted Ecx1 0) 1).t = true ∧
    (itRes Ecx1 3 clockCx1 0 (rootSorted Ecx1 0) 1).dbm = some 1 ∧
    (itRes Ecx1 3 clockCx1 0 (rootSorted Ecx1 0) 0).dbm = some 0 ∧
    get_best_move Ecx1 3 clockCx1 0 = some 0 := by
  decide

/--
C1 corrected: the driver policy in terms of the post-iteration clock checks.
(i) If no clock read ever reports the budget exceeded, iterations for depths
1 to 4 all run and the depth-4 best move is returned.  (ii) If already the
first iteration's post-loop check reports the budget exceeded, the first
iteration's (possibly partial) best move is returned.  (iii) If the first
exceeded post-loop check is that of iteration `j + 1` (counting from 0), the
adopted best move of iteration `j` is returned, except that when iteration
`j` recorded no move at all the timed-out iteration's partial best move is
returned instead.  A depth whose root-move loop ran to completion but whose
post-loop check observes the budget exceeded counts as timed out, not as
completed (this is what the counterexample exhibits).
-/
theorem C1_iterative_deepening_policy {Pos M : Type} (e : Engine Pos M)
    (F : Nat) (clock : Nat → Bool) (p : Pos) :
    ((∀ i, clock i = false) → e.legal_moves p ≠ [] →
      get_best_move e F clock p = (itRes e F clock p (rootSorted e p) 3).dbm) ∧
    (clock (itRes e F clock p (rootSorted e p) 0).t = true →
      e.legal_moves p ≠ [] →
      get_best_move e F clock p = (itRes e F clock p (rootSorted e p) 0).dbm) ∧
    (∀ j : Nat, 1 ≤ j → j ≤ 3 →
      (∀ i, i < j → clock (itRes e F clock p (rootSorted e p) i).t = false) →
      clock (itRes e F clock p (rootSorted e p) j).t = true →
      e.legal_moves p ≠ [] →
      get_best_move e F clock p =
        (if (itRes e F clock p (rootSorted e p) j).dbm.isSome &&
            (itRes e F clock p (rootSorted e p) (j - 1)).dbm.isNone then
          (itRes e F clock p (rootSorted e p) j).dbm
        else (itRes e F clock p (rootSorted e p) (j - 1)).dbm)) := by
  refine ⟨?_, ?_, ?_⟩
  · intro hclk hne
    exact idLoop_noTimeout e F clock p hclk hne
  · intro h0 hne
    rw [get_best_move_ne_nil e F clock p hne]
    rw [idLoop_succ_eq]
    rw [show rootLoop e F clock 1 p (rootSorted e p) none Score.ninf Score.ninf
        Score.pinf 0 = itRes e F clock p (rootSorted e p) 0 from rfl]
    rw [h0, if_pos rfl]
    cases hdbm : (itRes e F clock p (rootSorted e p) 0).dbm with
    | none => simp [hdbm]
    | some m => simp [hdbm]
  · intro j hj1 hj3 hprev hj hne
    rw [get_best_move_ne_nil e F clock p hne]
    interval_cases j
    · rw [idLoop_succ_eq]
      rw [show rootLoop e F clock 1 p (rootSorted e p) none Score.ninf
          Score.ninf Score.pinf 0 = itRes e F clock p (rootSorted e p) 0
          from rfl]
      rw [hprev 0 (by omega), if_neg Bool.false_ne_true]
      rw [idLoop_succ_eq]
      rw [show rootLoop e F clock 2 p (rootSorted e p) none Score.ninf
          Score.ninf Score.pinf ((itRes e F clock p (rootSorted e p) 0).t + 1) =
          itRes e F clock p (rootSorted e p) 1 from rfl]
      rw [hj, if_pos rfl]
    · rw [idLoop_succ_eq]
      rw [show rootLoop e F clock 1 p (rootSorted e p) none Score.ninf
          Score.ninf Score.pinf 0 = itRes e F clock p (rootSorted e p) 0
          from rfl]
      rw [hprev 0 (by omega), if_neg Bool.false_ne_true]
      rw [idLoop_succ_eq]
      rw [show rootLoop e F clock 2 p (rootSorted e p) none Score.ninf
          Score.ninf Score.pinf ((itRes e F clock p (rootSorted e p) 0).t + 1) =
          itRes e F clock p (rootSorted e p) 1 from rfl]
      rw [hprev 1 (by omega), if_neg Bool.false_ne_true]
      rw [idLoop_succ_eq]
      rw [show rootLoop e F clock 3 p (rootSorted e p) none Score.ninf
          Score.ninf Score.pinf ((itRes e F clock p (rootSorted e p) 1).t + 1) =
          itRes e F clock p (rootSorted e p) 2 from rfl]
      rw [hj, if_pos rfl]
    · rw [idLoop_succ_eq]
      rw [show rootLoop e F clock 1 p (rootSorted e p) none Score.ninf
          Score.ninf Score.pinf 0 = itRes e F clock p (rootSorted e p) 0
          from rfl]
      rw [hprev 0 (by omega), if_neg Bool.false_ne_true]
      rw [idLoop_succ_eq]
      rw [show rootLoop e F clock 2 p (rootSorted e p) none Score.ninf
          Score.ninf Score.pinf ((itRes e F clock p (rootSorted e p) 0).t + 1) =
          itRes e F clock p (rootSorted e p) 1 from rfl]
      rw [hprev 1 (by omega), if_neg Bool.false_ne_true]
      rw [idLoop_succ_eq]
      rw [show rootLoop e F clock 3 p (rootSorted e p) none Score.ninf
          Score.ninf Score.pinf ((itRes e F clock p (rootSorted e p) 1).t + 1) =
          itRes e F clock p (rootSorted e p) 2 from rfl]
      rw [hprev 2 (by omega), if_neg Bool.false_ne_true]
      rw [idLoop_succ_eq]
      rw [show rootLoop e F clock 4 p (rootSorted e p) none Score.ninf
          Score.ninf Score.pinf ((itRes e F clock p (rootSorted e p) 2).t + 1) =
          itRes e F clock p (rootSorted e p) 3 from rfl]
      rw [hj, if_pos rfl]

/--
Witness for C1 corrected, exercising all three branches: (i) `DemoE` with a
never-exceeded budget returns the depth-4 best move; (ii) `Ecx1` with an
always-exceeded budget returns the first iteration's partial best move;
(iii) `Ecx1` with `clockCx1` times out at the depth-2 iteration's post-loop
check and keeps depth 1's adopted move.
-/
theorem C1_iterative_deepening_policy_witness :
    get_best_move DemoE 3 (fun _ => false) 2 =
      (itRes DemoE 3 (fun _ => false) 2 (rootSorted DemoE 2) 3).dbm ∧
    get_best_move Ecx1 3 (fun _ => true) 0 =
      (itRes Ecx1 3 (fun _ => true) 0 (rootSorted Ecx1 0) 0).dbm ∧
    get_best_move Ecx1 3 clockCx1 0 =
      (if (itRes Ecx1 3 clockCx1 0 (rootSorted Ecx1 0) 1).dbm.isSome &&
          (itRes Ecx1 3 clockCx1 0 (rootSorted Ecx1 0) 0).dbm.isNone then
        (itRes Ecx1 3 clockCx1 0 (rootSorted Ecx1 0) 1).dbm
      else (itRes Ecx1 3 clockCx1 0 (rootSorted Ecx1 0) 0).dbm) := by
  refine ⟨?_, ?_, ?_⟩
  · exact (C1_iterative_deepening_policy DemoE 3 (fun _ => false) 2).1
      (fun i => rfl) (by decide)
  · exact (C1_iterative_deepening_policy Ecx1 3 (fun _ => true) 0).2.1
      (by decide) (by decide)
  · exact (C1_iterative_deepening_policy Ecx1 3 clockCx1 0).2.2 1 (by omega)
      (by omega)
      (fun i hi => by
        have hi0 : i = 0 := by omega
        subst hi0
        decide)
      (by decide) (by decide)

/-!
Adequacy of the fuel embedding.  The Python quiescence recursion terminates
exactly when some measure of the position decreases along every candidate move
it searches (in chess: capture chains shrink the piece count, and check
evasions cannot cycle without captures in this code).  For any such measure,
the fuel argument is semantically irrelevant once it exceeds the measure of
the position: `qFuel` (and hence `negamax` for any sufficiently large
quiescence fuel) computes the unique fixed point of the source recursion, so
the fuel-exhausted branch is never observed.
-/

theorem qLoopF_congr {Pos M : Type} (e : Engine Pos M)
    (rec1 rec2 : Pos → Score → Score → Score) (p : Pos) (beta : Score)
    (ms : List M)
    (h : ∀ m ∈ ms, ∀ (a b : Score), rec1 (e.push p m) a b = rec2 (e.push p m) a b) :
    ∀ alpha : Score, qLoopF e rec1 p beta ms alpha = qLoopF e rec2 p beta ms alpha := by
  induction ms with
  | nil => intro alpha; rfl
  | cons m rest ih =>
    intro alpha
    simp only [qLoopF, h m (List.mem_cons_self m rest)]
    have ihr := ih (fun x hx a b => h x (List.mem_cons_of_mem m hx) a b)
    split
    · rfl
    · split
      · exact ihr _
      · exact ihr _

theorem nLoopF_congr {Pos M : Type} (e : Engine Pos M)
    (rec1 rec2 : Pos → Score → Score → Score) (p : Pos) (beta : Score)
    (ms : List M)
    (h : ∀ m ∈ ms, ∀ (a b : Score), rec1 (e.push p m) a b = rec2 (e.push p m) a b) :
    ∀ maxScore alpha : Score,
      nLoopF e rec1 p beta ms maxScore alpha =
        nLoopF e rec2 p beta ms maxScore alpha := by
  induction ms with
  | nil => intro maxScore alpha; rfl
  | cons m rest ih =>
    intro maxScore alpha
    simp only [nLoopF, h m (List.mem_cons_self m rest)]
    have ihr := ih (fun x hx a b => h x (List.mem_cons_of_mem m hx) a b)
    split <;> split <;> split <;> first | rfl | exact ihr _ _

theorem qFuel_fuel_irrelevant {Pos M : Type} (e : Engine Pos M) (mu : Pos → Nat)
    (hmu : ∀ (q : Pos) (m : M), m ∈ qSorted e q → mu (e.push q m) < mu q) :
    ∀ (n : Nat) (p : Pos), mu p ≤ n → ∀ (f g : Nat), mu p < f → mu p < g →
      ∀ (alpha beta : Score), qFuel e f p alpha beta = qFuel e g p alpha beta := by
  intro n
  induction n with
  | zero =>
    intro p hp f g hf hg alpha beta
    cases f with
    | zero => exact absurd hf (by omega)
    | succ f =>
      cases g with
      | zero => exact absurd hg (by omega)
      | succ g =>
        have hnil : qSorted e p = [] := by
          cases hq : qSorted e p with
          | nil => rfl
          | cons m rest =>
            have := hmu p m (hq ▸ List.mem_cons_self m rest)
            omega
        simp only [qFuel, hnil]
        rfl
  | succ n ih =>
    intro p hp f g hf hg alpha beta
    cases f with
    | zero => exact absurd hf (by omega)
    | succ f =>
      cases g with
      | zero => exact absurd hg (by omega)
      | succ g =>
        have hloop : ∀ m ∈ qSorted e p, ∀ (a b : Score),
            qFuel e f (e.push p m) a b = qFuel e g (e.push p m) a b := by
          intro m hm a b
          have hdec := hmu p m hm
          exact ih (e.push p m) (by omega) f g (by omega) (by omega) a b
        simp only [qFuel]
        split
        · exact qLoopF_congr e _ _ p beta (qSorted e p)
            (fun m hm a b => hloop m hm a b) alpha
        · split
          all_goals
            split
            · rfl
            · exact qLoopF_congr e _ _ p beta (qSorted e p)
                (fun m hm a b => hloop m hm a b) _

theorem negamax_fuel_irrelevant {Pos M : Type} (e : Engine Pos M)
    (mu : Pos → Nat)
    (hmu : ∀ (q : Pos) (m : M), m ∈ qSorted e q → mu (e.push q m) < mu q)
    (F G : Nat) (hF : ∀ q, mu q < F) (hG : ∀ q, mu q < G) :
    ∀ (d : Nat) (p : Pos) (alpha beta : Score),
      negamax e F d p alpha beta = negamax e G d p alpha beta := by
  intro d
  induction d with
  | zero =>
    intro p alpha beta
    exact qFuel_fuel_irrelevant e mu hmu (mu p) p (le_refl _) F G (hF p) (hG p)
      alpha beta
  | succ d ih =>
    intro p alpha beta
    simp only [negamax]
    split
    · rfl
    · exact nLoopF_congr e _ _ p beta (nSorted e p)
        (fun m _ a b => ih (e.push p m) a b) Score.ninf alpha

end ChessSpec
